import Mathlib

/-!
Verification development for the GitHub-Actions-YAML → Mermaid translation
engine (`src/lib/yaml-to-mermaid.ts`).  Strings are embedded as `List Char`
(the JS code is index-based over UTF-16 units; all inputs of interest are
plain scalar sequences, so `List Char` is a faithful model).  Functions keep
the names of their TypeScript sources.  The two loop-based string scanners
(`stripOuterParens`, the parser) are embedded with an explicit fuel
parameter bounded by the string length; fuel-sufficiency lemmas below show
the bound is never hit, so the fueled functions agree with the unbounded
JS loops.
-/

namespace Y2M

/-- Whitespace as trimmed by JS `String.prototype.trim` (restricted to the
standard ASCII whitespace characters, the only ones arising here). -/
def isJsSpace (c : Char) : Bool :=
  c = ' ' || c = '\t' || c = '\n' || c = '\r'

/-- JS `s.trim()`. -/
def trimL (s : List Char) : List Char :=
  ((s.dropWhile isJsSpace).reverse.dropWhile isJsSpace).reverse

/-- `sanitizeId`: replace every character outside `[A-Za-z0-9_]` by `_`. -/
def sanitizeId (name : List Char) : List Char :=
  name.map (fun c =>
    if ('a' ≤ c && c ≤ 'z') || ('A' ≤ c && c ≤ 'Z') || ('0' ≤ c && c ≤ '9') || c = '_'
    then c else '_')

/-- `escapeLabel`: `"`→`#quot;`, newline→`<br/>`, then truncate to 80.
(The two JS `replace` passes commute with a single pass because neither
replacement string contains a character replaced by the other pass.) -/
def escapeLabel (text : List Char) : List Char :=
  (text.flatMap (fun c =>
    if c = '"' then ("#quot;").data
    else if c = '\n' then ("<br/>").data
    else [c])).take 80

/-- Decimal rendering of a counter value (JS number-to-string in a template). -/
def natChars (n : Nat) : List Char := (Nat.repr n).data

-- ---------------------------------------------------------------------------
-- Condition badge styling
-- ---------------------------------------------------------------------------

structure ConditionStyle where
  icon : List Char
  label : List Char
  className : List Char
  fill : List Char
  stroke : List Char
deriving DecidableEq

/-- `CONDITION_STYLES`, in object-literal insertion order. -/
def CONDITION_STYLES : List (List Char × ConditionStyle) :=
  [ (("always()").data,
      ⟨("🔄").data, ("Always Run").data, ("condAlways").data, ("#4A90D9").data, ("#2E6EB5").data⟩)
  , (("success()").data,
      ⟨("✅").data, ("Success Only").data, ("condSuccess").data, ("#28A745").data, ("#1E7E34").data⟩)
  , (("failure()").data,
      ⟨("❌").data, ("Failure Only").data, ("condFailure").data, ("#DC3545").data, ("#BD2130").data⟩)
  , (("cancelled()").data,
      ⟨("⛔").data, ("Cancelled").data, ("condCancelled").data, ("#FD7E14").data, ("#E36209").data⟩) ]

def CUSTOM_CONDITION_STYLE_icon : List Char := ("🔧").data
def CUSTOM_CONDITION_STYLE_className : List Char := ("condCustom").data
def CUSTOM_CONDITION_STYLE_fill : List Char := ("#6C757D").data
def CUSTOM_CONDITION_STYLE_stroke : List Char := ("#545B62").data

/-- `normalizeCondition`: trim. -/
def normalizeCondition (condText : List Char) : List Char := trimL condText

/-- `parseNegation`: recognise a leading `!`, returning the negation flag and
the trimmed inner text. -/
def parseNegation (condText : List Char) : Bool × List Char :=
  match trimL condText with
  | '!' :: rest => (true, trimL rest)
  | t => (false, t)

/-- Table lookup in `CONDITION_STYLES` (`CONDITION_STYLES[key] ?? null`). -/
def styleLookup (key : List Char) : Option ConditionStyle :=
  (CONDITION_STYLES.find? (fun p => decide (p.1 = key))).map (·.2)

/-- `getConditionStyle` (negation-aware variant). -/
def getConditionStyle (condText : List Char) : Option ConditionStyle :=
  styleLookup (normalizeCondition (parseNegation condText).2)

/-- `isAlwaysCondition`: `always()` without negation; `!always()` is not
always-true. -/
def isAlwaysCondition (condText : List Char) : Bool :=
  match parseNegation condText with
  | (true, _) => false
  | (false, inner) => decide (normalizeCondition inner = ("always()").data)

/-- `formatConditionNode`: stadium node for a recognised guard (dashed
`Neg` class with a `NOT ` label prefix when negated), diamond node for a
custom guard. -/
def formatConditionNode (condId condText indent : List Char) : List Char :=
  let (negated, inner) := parseNegation condText
  match styleLookup (normalizeCondition inner) with
  | some style =>
      if negated then
        indent ++ condId ++ ("([\"").data ++ style.icon ++ (" NOT ").data ++ style.label
          ++ ("\"]):::").data ++ style.className ++ ("Neg").data
      else
        indent ++ condId ++ ("([\"").data ++ style.icon ++ (" ").data ++ style.label
          ++ ("\"]):::").data ++ style.className
  | none =>
      indent ++ condId ++ ("\x7b\"").data ++ CUSTOM_CONDITION_STYLE_icon ++ (" ").data
        ++ escapeLabel condText ++ ("\"\x7d:::").data ++ CUSTOM_CONDITION_STYLE_className

-- ---------------------------------------------------------------------------
-- Condition expression parser
-- ---------------------------------------------------------------------------

/-- AST of a guard expression. -/
inductive ConditionAST where
  | atom : List Char → ConditionAST
  | and : List ConditionAST → ConditionAST
  | or : List ConditionAST → ConditionAST

mutual

/-- Structural equality test on `ConditionAST` (decidability helper). -/
def ConditionAST.beq : ConditionAST → ConditionAST → Bool
  | .atom a, .atom b => decide (a = b)
  | .and xs, .and ys => ConditionAST.beqList xs ys
  | .or xs, .or ys => ConditionAST.beqList xs ys
  | _, _ => false

/-- Pointwise `ConditionAST.beq` on lists. -/
def ConditionAST.beqList : List ConditionAST → List ConditionAST → Bool
  | [], [] => true
  | x :: xs, y :: ys => ConditionAST.beq x y && ConditionAST.beqList xs ys
  | _, _ => false

end

theorem ConditionAST.beq_iff :
    ∀ a b : ConditionAST, ConditionAST.beq a b = true ↔ a = b := by
  have key : ∀ n, ∀ a b : ConditionAST, sizeOf a ≤ n →
      (ConditionAST.beq a b = true ↔ a = b) := by
    intro n
    induction n with
    | zero =>
      intro a b h
      cases a <;> simp at h
    | succ n ih =>
      have listIff : ∀ xs ys : List ConditionAST,
          (∀ x ∈ xs, ∀ y : ConditionAST, (ConditionAST.beq x y = true ↔ x = y)) →
          (ConditionAST.beqList xs ys = true ↔ xs = ys) := by
        intro xs
        induction xs with
        | nil => intro ys _; cases ys <;> simp [ConditionAST.beqList]
        | cons x xs ihl =>
          intro ys hx
          cases ys with
          | nil => simp [ConditionAST.beqList]
          | cons y ys =>
            simp only [ConditionAST.beqList, Bool.and_eq_true, List.cons.injEq]
            constructor
            · rintro ⟨h1, h2⟩
              exact ⟨(hx x (by simp) y).1 h1,
                (ihl ys (fun z hz w => hx z (by simp [hz]) w)).1 h2⟩
            · rintro ⟨h1, h2⟩
              exact ⟨(hx x (by simp) y).2 h1,
                (ihl ys (fun z hz w => hx z (by simp [hz]) w)).2 h2⟩
      intro a b h
      cases a with
      | atom v => cases b <;> simp [ConditionAST.beq]
      | and xs =>
        cases b <;> simp only [ConditionAST.beq] <;> try simp
        · rename_i ys
          have := listIff xs ys (fun x hx y => ih x y (by
            have hlt : sizeOf x < sizeOf xs := List.sizeOf_lt_of_mem hx
            have : sizeOf xs < sizeOf (ConditionAST.and xs) := by simp
            omega))
          simpa using this
      | or xs =>
        cases b <;> simp only [ConditionAST.beq] <;> try simp
        · rename_i ys
          have := listIff xs ys (fun x hx y => ih x y (by
            have hlt : sizeOf x < sizeOf xs := List.sizeOf_lt_of_mem hx
            have : sizeOf xs < sizeOf (ConditionAST.or xs) := by simp
            omega))
          simpa using this
  exact fun a b => key (sizeOf a) a b le_rfl

instance : DecidableEq ConditionAST :=
  fun a b => decidable_of_iff _ (ConditionAST.beq_iff a b)

/-- `findMatchingParen` scanning loop (index `i`, signed depth). -/
def findMatchingParenAux : List Char → Nat → Int → Option Nat
  | [], _, _ => none
  | c :: rest, i, depth =>
    if c = '(' then findMatchingParenAux rest (i + 1) (depth + 1)
    else if c = ')' then
      if depth - 1 = 0 then some i else findMatchingParenAux rest (i + 1) (depth - 1)
    else findMatchingParenAux rest (i + 1) depth

/-- `findMatchingParen expr openIdx`: position of the `)` matching the `(`
at `openIdx` (`none` for JS `-1`). -/
def findMatchingParen (expr : List Char) (openIdx : Nat) : Option Nat :=
  findMatchingParenAux (expr.drop openIdx) openIdx 0

/-- The `while (true)` loop of `stripOuterParens`, with fuel.  Each iteration
shortens the string by at least two characters, so `fuel = length` never runs
out (`stripOuterParensF_congr` below). -/
def stripOuterParensF : Nat → List Char → List Char
  | 0, e => trimL e
  | f + 1, e =>
    let t := trimL e
    match t with
    | '(' :: _ =>
      match findMatchingParen t 0 with
      | some closeIdx =>
        if closeIdx = t.length - 1 then
          let inner := trimL ((t.drop 1).dropLast)
          if inner = [] then t else stripOuterParensF f inner
        else t
      | none => t
    | _ => t

/-- `stripOuterParens`. -/
def stripOuterParens (expr : List Char) : List Char :=
  stripOuterParensF expr.length expr

/-- `splitTopLevel` scanning loop: signed depth; a split is recognised when
both operator characters (the two operators are the twin-character `&&` and
`||`, embedded by their character `o`) appear at depth 0; the part collected
so far is `acc` reversed. -/
def splitTopLevelAux (o : Char) : List Char → Int → List Char → List (List Char)
  | [], _, acc => [acc.reverse]
  | [c], _, acc => [(c :: acc).reverse]
  | c :: c2 :: rest, depth, acc =>
    if c = '(' then splitTopLevelAux o (c2 :: rest) (depth + 1) (c :: acc)
    else if c = ')' then splitTopLevelAux o (c2 :: rest) (depth - 1) (c :: acc)
    else if depth = 0 && c = o && c2 = o then
      acc.reverse :: splitTopLevelAux o rest depth []
    else splitTopLevelAux o (c2 :: rest) depth (c :: acc)

/-- `splitTopLevel`: split at depth 0, trim the parts, drop empty parts. -/
def splitTopLevel (expr : List Char) (o : Char) : List (List Char) :=
  ((splitTopLevelAux o expr 0 []).map trimL).filter (fun p => !p.isEmpty)

/-- `parseConditionExpr` with fuel (the recursion descends into strictly
shorter parts, so `fuel = length + 1` suffices; see `parseConditionExprF_congr`). -/
def parseConditionExprF : Nat → List Char → ConditionAST
  | 0, expr => ConditionAST.atom (trimL expr)
  | f + 1, expr0 =>
    let expr := stripOuterParens (trimL expr0)
    let orParts := splitTopLevel expr '|'
    if 1 < orParts.length then
      ConditionAST.or (orParts.map (parseConditionExprF f))
    else
      let andParts := splitTopLevel expr '&'
      if 1 < andParts.length then
        ConditionAST.and (andParts.map (parseConditionExprF f))
      else ConditionAST.atom (trimL expr)

/-- `parseConditionExpr`. -/
def parseConditionExpr (expr : List Char) : ConditionAST :=
  parseConditionExprF (expr.length + 1) expr

-- ---------------------------------------------------------------------------
-- Condition chain compiler
-- ---------------------------------------------------------------------------

structure TargetEdge where
  fromId : List Char
  label : Option (List Char)
deriving DecidableEq

structure ConditionChainResult where
  nodeLines : List (List Char)
  internalEdges : List (List Char)
  entryId : List Char
  toTargetEdges : List TargetEdge
  skipSourceIds : List (List Char)
  isFullyAlways : Bool
deriving DecidableEq

/-- The inner double loop of `mergeANDChains`: each previous child's
`toTargetEdges` is wired by an `AND` edge into the next child's entry. -/
def andPairEdges (indent : List Char) : List ConditionChainResult → List (List Char)
  | c1 :: c2 :: rest =>
      c1.toTargetEdges.map (fun e => indent ++ e.fromId ++ (" -->|AND| ").data ++ c2.entryId)
        ++ andPairEdges indent (c2 :: rest)
  | _ => []

/-- The inner double loop of `mergeORChains`: each previous child's
`skipSourceIds` is wired by a dashed `OR` edge into the next child's entry. -/
def orPairEdges (indent : List Char) : List ConditionChainResult → List (List Char)
  | c1 :: c2 :: rest =>
      c1.skipSourceIds.map (fun s => indent ++ s ++ (" -.->|OR| ").data ++ c2.entryId)
        ++ orPairEdges indent (c2 :: rest)
  | _ => []

/-- `mergeANDChains`.  (The JS accesses `children[0]` / the last child
directly; it is only ever called with ≥ 2 children, the `[]` defaults below
are unreachable from the compiler.) -/
def mergeANDChains (children : List ConditionChainResult) (indent : List Char) :
    ConditionChainResult :=
  let skipSourceIds := children.flatMap (·.skipSourceIds)
  { nodeLines := children.flatMap (·.nodeLines)
  , internalEdges := children.flatMap (·.internalEdges) ++ andPairEdges indent children
  , entryId := ((children.head?).map (·.entryId)).getD []
  , toTargetEdges := ((children.getLast?).map (·.toTargetEdges)).getD []
  , skipSourceIds := skipSourceIds
  , isFullyAlways := skipSourceIds.isEmpty }

/-- `mergeORChains`. -/
def mergeORChains (children : List ConditionChainResult) (indent : List Char) :
    ConditionChainResult :=
  { nodeLines := children.flatMap (·.nodeLines)
  , internalEdges := children.flatMap (·.internalEdges) ++ orPairEdges indent children
  , entryId := ((children.head?).map (·.entryId)).getD []
  , toTargetEdges := children.flatMap (·.toTargetEdges)
  , skipSourceIds := ((children.getLast?).map (·.skipSourceIds)).getD []
  , isFullyAlways := children.all (·.isFullyAlways) }

mutual

/-- `generateChainFromAST`; the counter (a mutable shared cell in JS) is
threaded explicitly and returned. -/
def generateChainFromAST (baseCondId : List Char) (ast : ConditionAST)
    (indent : List Char) (counter : Nat) : ConditionChainResult × Nat :=
  match ast with
  | .atom v =>
      let nodeId := baseCondId ++ ("_p").data ++ natChars counter
      let partIsAlways := isAlwaysCondition v
      (⟨[formatConditionNode nodeId v indent], [], nodeId,
        [⟨nodeId, if partIsAlways then none else some (("Yes").data)⟩],
        if partIsAlways then [] else [nodeId], partIsAlways⟩,
       counter + 1)
  | .and cs =>
      let (rs, c) := generateChainListFromAST baseCondId cs indent counter
      (mergeANDChains rs indent, c)
  | .or cs =>
      let (rs, c) := generateChainListFromAST baseCondId cs indent counter
      (mergeORChains rs indent, c)

/-- `ast.children.map(child => generateChainFromAST(...))` with the counter
threaded left to right. -/
def generateChainListFromAST (baseCondId : List Char) (asts : List ConditionAST)
    (indent : List Char) (counter : Nat) : List ConditionChainResult × Nat :=
  match asts with
  | [] => ([], counter)
  | a :: rest =>
      let (r, c1) := generateChainFromAST baseCondId a indent counter
      let (rs, c2) := generateChainListFromAST baseCondId rest indent c1
      (r :: rs, c2)

end

/-- `generateConditionChain`: single-condition fast path keeps `baseCondId`;
composite conditions go through the counter-based recursion. -/
def generateConditionChain (baseCondId condText indent : List Char) :
    ConditionChainResult :=
  match parseConditionExpr (trimL condText) with
  | .atom v =>
      let partIsAlways := isAlwaysCondition v
      ⟨[formatConditionNode baseCondId v indent], [], baseCondId,
        [⟨baseCondId, if partIsAlways then none else some (("Yes").data)⟩],
        if partIsAlways then [] else [baseCondId], partIsAlways⟩
  | ast => (generateChainFromAST baseCondId ast indent 0).1

-- ---------------------------------------------------------------------------
-- Workflow data model
-- ---------------------------------------------------------------------------

structure StepDefinition where
  name : Option (List Char)
  uses : Option (List Char)
  run : Option (List Char)
  ifCond : Option (List Char)
deriving DecidableEq

/-- `runs-on` / `needs` are `string | string[]` in the source. -/
structure JobDefinition where
  name : Option (List Char)
  runsOn : Option (Sum (List Char) (List (List Char)))
  needs : Option (Sum (List Char) (List (List Char)))
  ifCond : Option (List Char)
  steps : Option (List StepDefinition)
  uses : Option (List Char)
deriving DecidableEq

/-- Individual trigger configuration: `null`/non-object values, the
`schedule` array form (entries with an optional `cron` field), or an object
with the optional filter lists read by `parseTriggers`. -/
instance : Inhabited StepDefinition := ⟨⟨none, none, none, none⟩⟩

instance : Inhabited JobDefinition := ⟨⟨none, none, none, none, none, none⟩⟩

inductive TriggerConfig where
  | scalar : TriggerConfig
  | arrayCfg : List (Option (List Char)) → TriggerConfig
  | objCfg : Option (List (List Char)) → Option (List (List Char)) →
      Option (List (List Char)) → Option (List (List Char)) → TriggerConfig
deriving DecidableEq

inductive WorkflowTrigger where
  | str : List Char → WorkflowTrigger
  | arr : List (List Char) → WorkflowTrigger
  | map : List (List Char × Option TriggerConfig) → WorkflowTrigger
deriving DecidableEq

/-- `jobs` is an insertion-ordered string-keyed mapping, embedded as an
association list with (by the semantics of JS objects) distinct keys. -/
structure WorkflowDefinition where
  name : Option (List Char)
  onTrig : Option WorkflowTrigger
  jobs : Option (List (List Char × JobDefinition))
deriving DecidableEq

structure ConversionResult where
  mermaidCode : List Char
  error : Option (List Char)
deriving DecidableEq

/-- JS truthiness of an optional string field (`undefined` and `""` are
falsy). -/
def optTruthy (o : Option (List Char)) : Bool :=
  match o with
  | some s => !s.isEmpty
  | none => false

/-- `Array.prototype.join(sep)`. -/
def joinSep (sep : List Char) : List (List Char) → List Char
  | [] => []
  | [x] => x
  | x :: xs => x ++ sep ++ joinSep sep xs

/-- `lines.join('\n')`. -/
def joinLines (lines : List (List Char)) : List Char := joinSep [('\n')] lines

/-- `jobs[name]` (JS object keys are distinct; first match on the
association list). -/
def lookupJob (jobs : List (List Char × JobDefinition)) (name : List Char) :
    Option JobDefinition :=
  (jobs.find? (fun p => decide (p.1 = name))).map (·.2)

/-- The dependency list actually iterated by the source
(`Array.isArray(job.needs) ? job.needs : [job.needs]`, guarded by the JS
truthiness of `job.needs`, which makes `needs: ""` equivalent to no
dependencies at every use site). -/
def jobNeeds (job : JobDefinition) : List (List Char) :=
  match job.needs with
  | none => []
  | some (Sum.inl s) => if s.isEmpty then [] else [s]
  | some (Sum.inr l) => l

/-- `getRootJobs`: jobs whose `needs` is absent/falsy or an empty array,
i.e. exactly those with an empty iterated dependency list. -/
def getRootJobs (jobs : List (List Char × JobDefinition)) : List (List Char) :=
  (jobs.filter (fun p => (jobNeeds p.2).isEmpty)).map Prod.fst

-- ---------------------------------------------------------------------------
-- Topological sort
-- ---------------------------------------------------------------------------

/-- The recursive `visit` closure of `topologicalSort`, carrying the
`(visited, result)` state.  A fuel argument bounds the recursion depth; each
nested call records a previously unvisited job key first, so
`jobs.length + 1` fuel is never exhausted when the keys are distinct
(`visit_fuel_sufficient` below). -/
def visit (jobs : List (List Char × JobDefinition)) :
    Nat → List Char → List (List Char) × List (List Char) →
    List (List Char) × List (List Char)
  | 0, _, st => st
  | fuel + 1, name, (visited, result) =>
    if name ∈ visited then (visited, result)
    else
      let visited := name :: visited
      let st :=
        match lookupJob jobs name with
        | some job =>
            (jobNeeds job).foldl
              (fun st dep =>
                if (lookupJob jobs dep).isSome then visit jobs fuel dep st else st)
              (visited, result)
        | none => (visited, result)
      (st.1, st.2 ++ [name])

/-- `topologicalSort`: depth-first traversal over `needs`, started from the
declared key order. -/
def topologicalSort (jobs : List (List Char × JobDefinition)) :
    List (List Char) :=
  ((jobs.map Prod.fst).foldl
    (fun st name => visit jobs (jobs.length + 1) name st) ([], [])).2

-- ---------------------------------------------------------------------------
-- Graph builder
-- ---------------------------------------------------------------------------

structure TriggerInfo where
  name : List Char
  detail : Option (List Char)
deriving DecidableEq

/-- `parseTriggers`. -/
def parseTriggers (trig : WorkflowTrigger) : List TriggerInfo :=
  match trig with
  | .str s => [⟨s, none⟩]
  | .arr l => l.map (fun n => ⟨n, none⟩)
  | .map entries => entries.map (fun p =>
      match p.2 with
      | none => ⟨p.1, none⟩
      | some .scalar => ⟨p.1, none⟩
      | some (.arrayCfg crons) =>
          if p.1 = ("schedule").data then
            ⟨p.1, some (joinSep (", ").data
              ((crons.filterMap id).filter (fun c => !c.isEmpty)))⟩
          else
            ⟨p.1, none⟩
      | some (.objCfg branches tags paths types) =>
          let details :=
            (match branches with
             | some l => [("branches: ").data ++ joinSep (", ").data l]
             | none => []) ++
            (match tags with
             | some l => [("tags: ").data ++ joinSep (", ").data l]
             | none => []) ++
            (match paths with
             | some l => [("paths: ").data ++ joinSep (", ").data l]
             | none => []) ++
            (match types with
             | some l => [("types: ").data ++ joinSep (", ").data l]
             | none => [])
          ⟨p.1, if details.isEmpty then none else some (joinSep (", ").data details)⟩)

/-- `generateTriggers`. -/
def generateTriggers (trig : WorkflowTrigger) : List (List Char) :=
  [("  subgraph triggers [\"Triggers\"]").data] ++
  (parseTriggers trig).map (fun t =>
    let id := ("trigger_").data ++ sanitizeId t.name
    let label :=
      if optTruthy t.detail then
        t.name ++ ("<br/>").data ++ escapeLabel (t.detail.getD [])
      else t.name
    ("    ").data ++ id ++ ("[\"").data ++ label ++ ("\"]").data) ++
  [("  end").data]

/-- `generateJobConditionNodes`: pre-emitted badge chains of guarded jobs. -/
def generateJobConditionNodes (jobs : List (List Char × JobDefinition)) :
    List (List Char) :=
  jobs.flatMap (fun p =>
    if optTruthy p.2.ifCond then
      let condId := ("cond_job_").data ++ sanitizeId p.1
      let chain := generateConditionChain condId (p.2.ifCond.getD []) ("  ").data
      chain.nodeLines ++ chain.internalEdges
    else [])

/-- `getStepLabel`: name > uses > first line of run (truncated to 60 with
ellipsis) > placeholder. -/
def getStepLabel (step : StepDefinition) : List Char :=
  if optTruthy step.name then step.name.getD []
  else if optTruthy step.uses then step.uses.getD []
  else if optTruthy step.run then
    let firstLine := trimL ((step.run.getD []).takeWhile (fun c => !(c = '\n')))
    if 60 < firstLine.length then firstLine.take 57 ++ ("...").data else firstLine
  else ("(unnamed step)").data

/-- `` `${sanitizeId(jobName)}_s${i}` ``. -/
def stepId (jobName : List Char) (i : Nat) : List Char :=
  sanitizeId jobName ++ ("_s").data ++ natChars i

/-- `generateJob`. -/
def generateJob (jobName : List Char) (job : JobDefinition) : List (List Char) :=
  let jobId := ("job_").data ++ sanitizeId jobName
  let displayName := if optTruthy job.name then job.name.getD [] else jobName
  let runsOn :=
    match job.runsOn with
    | none => []
    | some (Sum.inl s) => if s.isEmpty then [] else (" (").data ++ s ++ (")").data
    | some (Sum.inr l) => (" (").data ++ joinSep (", ").data l ++ (")").data
  let header :=
    ("  subgraph ").data ++ jobId ++ (" [\"").data ++ escapeLabel displayName
      ++ runsOn ++ ("\"]").data
  if optTruthy job.uses then
    [header,
     ("    ").data ++ jobId ++ ("_uses[\"uses: ").data
       ++ escapeLabel (job.uses.getD []) ++ ("\"]").data,
     ("  end").data]
  else
    let steps := job.steps.getD []
    let body :=
      if steps.isEmpty then
        [("    ").data ++ jobId ++ ("_empty[\"(no steps)\"]").data]
      else
        let stepChains : List (Option ConditionChainResult) :=
          (List.range steps.length).map (fun i =>
            match steps[i]? with
            | some step =>
                if optTruthy step.ifCond then
                  some (generateConditionChain (("cond_").data ++ stepId jobName i)
                    (step.ifCond.getD []) ("    ").data)
                else none
            | none => none)
        let nodeLines := (List.range steps.length).flatMap (fun i =>
          (match stepChains[i]? with
           | some (some chain) => chain.nodeLines ++ chain.internalEdges
           | _ => []) ++
          [("    ").data ++ stepId jobName i ++ ("[\"").data
            ++ escapeLabel (getStepLabel (steps[i]?.getD ⟨none, none, none, none⟩))
            ++ ("\"]").data])
        let edgeLines := (List.range steps.length).flatMap (fun i =>
          (match stepChains[i]? with
           | some (some chain) =>
               chain.toTargetEdges.map (fun e =>
                 match e.label with
                 | some lbl => ("    ").data ++ e.fromId ++ (" -->|").data ++ lbl
                     ++ ("| ").data ++ stepId jobName i
                 | none => ("    ").data ++ e.fromId ++ (" --> ").data ++ stepId jobName i)
           | _ => []) ++
          (if i = 0 then []
           else
             let entryId :=
               match stepChains[i]? with
               | some (some chain) => chain.entryId
               | _ => stepId jobName i
             [("    ").data ++ stepId jobName (i - 1) ++ (" --> ").data ++ entryId]) ++
          (match stepChains[i]? with
           | some (some chain) =>
               if !chain.isFullyAlways && i + 1 < steps.length then
                 let nextEntry :=
                   match stepChains[i + 1]? with
                   | some (some nc) => nc.entryId
                   | _ => stepId jobName (i + 1)
                 chain.skipSourceIds.map (fun s =>
                   ("    ").data ++ s ++ (" -.->|Skip| ").data ++ nextEntry)
               else []
           | _ => []))
        nodeLines ++ edgeLines
    [header] ++ body ++ [("  end").data]

/-- The trigger → root-job wiring block of `convertYamlToMermaid`. -/
def rootTriggerEdges (jobs : List (List Char × JobDefinition)) :
    List (List Char) :=
  (getRootJobs jobs).flatMap (fun rootJob =>
    let plain := [("  triggers --> job_").data ++ sanitizeId rootJob]
    match lookupJob jobs rootJob with
    | some job =>
      if optTruthy job.ifCond then
        let condId := ("cond_job_").data ++ sanitizeId rootJob
        let chain := generateConditionChain condId (job.ifCond.getD []) ("  ").data
        [("  triggers --> ").data ++ chain.entryId] ++
        chain.toTargetEdges.map (fun e =>
          match e.label with
          | some lbl => ("  ").data ++ e.fromId ++ (" -->|").data ++ lbl
              ++ ("| job_").data ++ sanitizeId rootJob
          | none => ("  ").data ++ e.fromId ++ (" --> job_").data ++ sanitizeId rootJob)
      else plain
    | none => plain)

/-- `generateJobEdges`.  The `condEdgeAdded` set keyed by the (distinct) job
names reduces to a per-job boolean threaded through the dependency loop. -/
def generateJobEdges (jobs : List (List Char × JobDefinition)) :
    List (List Char) :=
  jobs.flatMap (fun p =>
    let jobName := p.1
    let job := p.2
    ((jobNeeds job).foldl
      (fun (acc : List (List Char) × Bool) dep =>
        if optTruthy job.ifCond then
          let condId := ("cond_job_").data ++ sanitizeId jobName
          let chain := generateConditionChain condId (job.ifCond.getD []) ("  ").data
          let depEdge := [("  job_").data ++ sanitizeId dep ++ (" --> ").data ++ chain.entryId]
          if acc.2 then (acc.1 ++ depEdge, true)
          else
            (acc.1 ++ depEdge ++ chain.toTargetEdges.map (fun e =>
              match e.label with
              | some lbl => ("  ").data ++ e.fromId ++ (" -->|").data ++ lbl
                  ++ ("| job_").data ++ sanitizeId jobName
              | none => ("  ").data ++ e.fromId ++ (" --> job_").data ++ sanitizeId jobName),
             true)
        else
          (acc.1 ++ [("  job_").data ++ sanitizeId dep ++ (" --> job_").data ++ sanitizeId jobName],
           acc.2))
      ([], false)).1)

/-- `generateConditionClassDefs`. -/
def generateConditionClassDefs : List (List Char) :=
  CONDITION_STYLES.flatMap (fun p =>
    let style := p.2
    [("  classDef ").data ++ style.className ++ (" fill:").data ++ style.fill
       ++ (",stroke:").data ++ style.stroke ++ (",color:#fff").data,
     ("  classDef ").data ++ style.className ++ ("Neg fill:#fff,stroke:").data
       ++ style.stroke ++ (",color:").data ++ style.fill
       ++ (",stroke-dasharray:5 5,stroke-width:2px").data])
  ++ [("  classDef ").data ++ CUSTOM_CONDITION_STYLE_className ++ (" fill:").data
       ++ CUSTOM_CONDITION_STYLE_fill ++ (",stroke:").data
       ++ CUSTOM_CONDITION_STYLE_stroke ++ (",color:#fff").data]

/-- JS truthiness of `workflow.on` (an empty-string trigger is falsy). -/
def triggerTruthy : WorkflowTrigger → Bool
  | .str s => !s.isEmpty
  | _ => true

/-- Outcome of the external deserializer `yaml.load` at the head of
`convertYamlToMermaid`: it throws (caught by the surrounding `try`), yields
`null`/a non-object, or yields a workflow object. -/
inductive YamlLoadResult where
  | throwsErr : List Char → YamlLoadResult
  | nonObject : YamlLoadResult
  | workflow : WorkflowDefinition → YamlLoadResult
deriving DecidableEq

def yamlParseFailMsg : List Char :=
  ("YAML のパースに失敗しました。有効な YAML を入力してください。").data

def missingJobsMsg : List Char :=
  ("jobs セクションが見つかりません。GitHub Actions のワークフロー YAML を入力してください。").data

def parseErrorPrefix : List Char := ("パースエラー: ").data

/-- `convertYamlToMermaid`, over the deserializer outcome.  The `try` block
of the source catches only the deserializer's exception (no operation in the
rest of the body throws), so it becomes the `throwsErr` case. -/
def convertYamlToMermaid (loaded : YamlLoadResult) : ConversionResult :=
  match loaded with
  | .throwsErr msg => ⟨[], some (parseErrorPrefix ++ msg)⟩
  | .nonObject => ⟨[], some yamlParseFailMsg⟩
  | .workflow w =>
    match w.jobs with
    | none => ⟨[], some missingJobsMsg⟩
    | some jobs =>
      if jobs.isEmpty then ⟨[], some missingJobsMsg⟩
      else
        let trigLines :=
          match w.onTrig with
          | some t => if triggerTruthy t then generateTriggers t else []
          | none => []
        let rootLines :=
          match w.onTrig with
          | some t => if triggerTruthy t then rootTriggerEdges jobs else []
          | none => []
        let lines :=
          [("flowchart TD").data]
          ++ trigLines
          ++ generateJobConditionNodes jobs
          ++ (topologicalSort jobs).flatMap (fun jobName =>
                match lookupJob jobs jobName with
                | some job => generateJob jobName job
                | none => [])
          ++ rootLines
          ++ generateJobEdges jobs
          ++ generateConditionClassDefs
        ⟨joinLines lines, none⟩

-- ---------------------------------------------------------------------------
-- Generic helpers for the theorems
-- ---------------------------------------------------------------------------

/-- `needle` is a prefix of `hay` (character-exact). -/
def seqAtFront : List Char → List Char → Bool
  | [], _ => true
  | _ :: _, [] => false
  | a :: as, b :: bs => a = b && seqAtFront as bs

/-- `needle` occurs contiguously somewhere in `hay`. -/
def containsSeq (needle : List Char) : List Char → Bool
  | [] => seqAtFront needle []
  | c :: rest => seqAtFront needle (c :: rest) || containsSeq needle rest

def apostrophe : Char := '\''

/-- A line list joined below a non-empty first line is non-empty. -/
theorem joinLines_cons_ne (x : List Char) (rest : List (List Char)) (hx : x ≠ []) :
    joinLines (x :: rest) ≠ [] := by
  cases rest <;> simp [joinLines, joinSep, hx]

/-- Membership of the pairwise `OR` fallthrough edges. -/
theorem orPairEdges_mem :
    ∀ (children : List ConditionChainResult) (ind : List Char) (i : Nat)
      (ci cj : ConditionChainResult),
      children[i]? = some ci → children[i + 1]? = some cj →
      ∀ s ∈ ci.skipSourceIds,
        (ind ++ s ++ (" -.->|OR| ").data ++ cj.entryId) ∈ orPairEdges ind children := by
  intro children
  induction children with
  | nil => intro ind i ci cj h1 h2 s hs; simp at h1
  | cons c1 tail ih =>
    intro ind i ci cj h1 h2 s hs
    cases tail with
    | nil =>
      cases i <;> simp at h2
    | cons c2 rest =>
      cases i with
      | zero =>
        simp only [List.getElem?_cons_zero, Option.some.injEq] at h1
        simp only [List.getElem?_cons_succ, List.getElem?_cons_zero, Option.some.injEq] at h2
        subst h1; subst h2
        refine List.mem_append_left _ ?_
        exact List.mem_map_of_mem _ hs
      | succ k =>
        rw [List.getElem?_cons_succ] at h1 h2
        exact List.mem_append_right _ (ih ind k ci cj h1 h2 s hs)

/-- Membership of the pairwise `AND` sequencing edges. -/
theorem andPairEdges_mem :
    ∀ (children : List ConditionChainResult) (ind : List Char) (i : Nat)
      (ci cj : ConditionChainResult),
      children[i]? = some ci → children[i + 1]? = some cj →
      ∀ e ∈ ci.toTargetEdges,
        (ind ++ e.fromId ++ (" -->|AND| ").data ++ cj.entryId) ∈ andPairEdges ind children := by
  intro children
  induction children with
  | nil => intro ind i ci cj h1 h2 e he; simp at h1
  | cons c1 tail ih =>
    intro ind i ci cj h1 h2 e he
    cases tail with
    | nil =>
      cases i <;> simp at h2
    | cons c2 rest =>
      cases i with
      | zero =>
        simp only [List.getElem?_cons_zero, Option.some.injEq] at h1
        simp only [List.getElem?_cons_succ, List.getElem?_cons_zero, Option.some.injEq] at h2
        subst h1; subst h2
        refine List.mem_append_left _ ?_
        exact List.mem_map_of_mem _ he
      | succ k =>
        rw [List.getElem?_cons_succ] at h1 h2
        exact List.mem_append_right _ (ih ind k ci cj h1 h2 e he)

-- ---------------------------------------------------------------------------
-- Claim C7
-- ---------------------------------------------------------------------------

/-- C7: `parseConditionExpr` is total — for every input string, including
unbalanced parentheses and stray operators, it returns a `ConditionAST`; and
whenever splitting (the outer-paren-stripped trimmed input) on `||` and on
`&&` at parenthesis depth 0 yields fewer than two non-empty parts, the result
is an atom holding that raw (trimmed) text. -/
theorem claim7_parser_total_atom_fallback (s : List Char)
    (h1 : (splitTopLevel (stripOuterParens (trimL s)) '|').length ≤ 1)
    (h2 : (splitTopLevel (stripOuterParens (trimL s)) '&').length ≤ 1) :
    parseConditionExpr s = ConditionAST.atom (trimL (stripOuterParens (trimL s))) := by
  show parseConditionExprF (s.length + 1) s = _
  simp only [parseConditionExprF]
  rw [if_neg (by omega), if_neg (by omega)]

/-- Witness for C7, at the malformed input `"(("`. -/
theorem claim7_parser_total_atom_fallback_witness :
    parseConditionExpr (("((").data) = ConditionAST.atom (("((").data) := by
  have h := claim7_parser_total_atom_fallback (("((").data) (by decide) (by decide)
  simpa using h

-- ---------------------------------------------------------------------------
-- Claim C5
-- ---------------------------------------------------------------------------

/-- C5: for an atom guard, the compiled chain has an unlabeled target edge,
empty skip set and `isFullyAlways = true` exactly when the trimmed text is
`always()` without a leading negation; every other atom (including
`!always()`) gets a `"Yes"`-labeled edge, its own id as sole skip source, and
`isFullyAlways = false`. -/
theorem claim5_atom_guard_chain (baseId cond indent v : List Char)
    (h : parseConditionExpr (trimL cond) = ConditionAST.atom v) :
    (generateConditionChain baseId cond indent).toTargetEdges
        = [⟨baseId, if isAlwaysCondition v then none else some (("Yes").data)⟩]
    ∧ (generateConditionChain baseId cond indent).skipSourceIds
        = (if isAlwaysCondition v then [] else [baseId])
    ∧ (generateConditionChain baseId cond indent).isFullyAlways = isAlwaysCondition v
    ∧ (isAlwaysCondition v = true
        ↔ (parseNegation v).1 = false
          ∧ normalizeCondition (parseNegation v).2 = ("always()").data)
    ∧ isAlwaysCondition (("!always()").data) = false := by
  unfold generateConditionChain
  rw [h]
  refine ⟨rfl, rfl, rfl, ?_, by decide⟩
  rcases hn : parseNegation v with ⟨b, inner⟩
  cases b <;> simp [isAlwaysCondition, hn]

/-- Witness for C5, at the guards `always()` and `!always()`. -/
theorem claim5_atom_guard_chain_witness :
    ((generateConditionChain (("cond").data) (("always()").data) (("  ").data)).toTargetEdges
        = [⟨("cond").data, none⟩])
    ∧ ((generateConditionChain (("cond").data) (("!always()").data) (("  ").data)).skipSourceIds
        = [("cond").data]) := by
  constructor
  · have h := claim5_atom_guard_chain (("cond").data) (("always()").data) (("  ").data)
      (("always()").data) (by decide)
    rw [h.1]; decide
  · have h := claim5_atom_guard_chain (("cond").data) (("!always()").data) (("  ").data)
      (("!always()").data) (by decide)
    rw [h.2.1]; decide

-- ---------------------------------------------------------------------------
-- Claim C2
-- ---------------------------------------------------------------------------

/-- The guard text
`(failure() || cancelled()) && github.ref == 'refs/heads/main'`. -/
def c2guard : List Char :=
  ("(failure() || cancelled()) && github.ref == ").data
    ++ apostrophe :: ("refs/heads/main").data ++ [apostrophe]

/-- C2 counterexample: compiling the guard yields **two** AND-labeled
internal edges (one per OR branch success output), not exactly one as the
claim states. -/
theorem claim2_counterexample :
    ¬ (((generateConditionChain (("cond").data) c2guard (("  ").data)).internalEdges.filter
        (fun l => containsSeq (("-->|AND|").data) l)).length = 1) := by
  decide

/-- C2 amended: the guard compiles exactly three badge node lines (failure,
cancelled, custom), and the internal edges connect **each** of the OR
sub-chain's two success outputs to the custom-guard node's entry via an
AND-labeled edge — two AND edges in total, after the single OR fallthrough
edge. -/
theorem claim2_amended :
    (generateConditionChain (("cond").data) c2guard (("  ").data)).nodeLines.length = 3
    ∧ (generateConditionChain (("cond").data) c2guard (("  ").data)).nodeLines
        = [("  cond_p0([\"❌ Failure Only\"]):::condFailure").data,
           ("  cond_p1([\"⛔ Cancelled\"]):::condCancelled").data,
           ("  cond_p2\x7b\"🔧 github.ref == ").data
             ++ apostrophe :: ("refs/heads/main").data
             ++ apostrophe :: ("\"\x7d:::condCustom").data]
    ∧ (generateConditionChain (("cond").data) c2guard (("  ").data)).internalEdges
        = [("  cond_p0 -.->|OR| cond_p1").data,
           ("  cond_p0 -->|AND| cond_p2").data,
           ("  cond_p1 -->|AND| cond_p2").data]
    ∧ (generateConditionChain (("cond").data) c2guard (("  ").data)).entryId
        = ("cond_p0").data := by
  decide

-- ---------------------------------------------------------------------------
-- Claim C8
-- ---------------------------------------------------------------------------

def c8job : JobDefinition :=
  ⟨none, none, none, none,
   some [⟨some (("Cleanup").data), none, none, some (("!cancelled()").data)⟩], none⟩

/-- C8: a job whose only step is guarded by `!cancelled()` renders the guard
as a stadium node with the cancelled icon, label `NOT Cancelled` and the
dashed `condCancelledNeg` class, a `Yes` edge from the guard into the step,
and no Skip edge anywhere (the guarded step is the last one). -/
theorem claim8_not_cancelled_last_step :
    generateJob (("test").data) c8job =
      [("  subgraph job_test [\"test\"]").data,
       ("    cond_test_s0([\"⛔ NOT Cancelled\"]):::condCancelledNeg").data,
       ("    test_s0[\"Cleanup\"]").data,
       ("    cond_test_s0 -->|Yes| test_s0").data,
       ("  end").data]
    ∧ (generateJob (("test").data) c8job).filter
        (fun l => containsSeq (("Skip").data) l) = [] := by
  decide

-- ---------------------------------------------------------------------------
-- Claim C1
-- ---------------------------------------------------------------------------

/-- C1: `convertYamlToMermaid` never throws; it yields either a non-empty
diagram with no error or the empty string with an error message; deserializer
exceptions and non-object values produce the parse-failure messages, a
missing/empty `jobs` mapping produces the distinct missing-jobs message, and
in every error case the diagram slot is exactly empty. -/
theorem claim1_result_contract (r : YamlLoadResult) :
    (((convertYamlToMermaid r).error = none ∧ (convertYamlToMermaid r).mermaidCode ≠ [])
      ∨ (∃ m, (convertYamlToMermaid r).error = some m
          ∧ (convertYamlToMermaid r).mermaidCode = []))
    ∧ (∀ msg, r = YamlLoadResult.throwsErr msg →
        convertYamlToMermaid r = ⟨[], some (parseErrorPrefix ++ msg)⟩)
    ∧ (r = YamlLoadResult.nonObject →
        convertYamlToMermaid r = ⟨[], some yamlParseFailMsg⟩)
    ∧ (∀ w, r = YamlLoadResult.workflow w → (w.jobs = none ∨ w.jobs = some []) →
        convertYamlToMermaid r = ⟨[], some missingJobsMsg⟩)
    ∧ (∀ msg, parseErrorPrefix ++ msg ≠ missingJobsMsg)
    ∧ yamlParseFailMsg ≠ missingJobsMsg := by
  refine ⟨?_, ?_, ?_, ?_, ?_, by decide⟩
  · cases r with
    | throwsErr msg => exact Or.inr ⟨_, rfl, rfl⟩
    | nonObject => exact Or.inr ⟨_, rfl, rfl⟩
    | workflow w =>
      obtain ⟨wname, wtrig, wjobs⟩ := w
      cases wjobs with
      | none => exact Or.inr ⟨_, rfl, rfl⟩
      | some jobs =>
        cases jobs with
        | nil => exact Or.inr ⟨_, rfl, rfl⟩
        | cons j js =>
          refine Or.inl ⟨rfl, ?_⟩
          exact joinLines_cons_ne _ _ (by decide)
  · intro msg hr; subst hr; rfl
  · intro hr; subst hr; rfl
  · intro w hr hj
    subst hr
    obtain ⟨wname, wtrig, wjobs⟩ := w
    rcases hj with hj | hj <;> simp only at hj <;> subst hj <;> rfl
  · intro msg h
    have h1 : (parseErrorPrefix ++ msg).head? = some 'パ' := rfl
    have h2 : missingJobsMsg.head? = some 'パ' := h ▸ h1
    exact absurd h2 (by decide)

/-- Witness for C1 (the statement quantifies over the load outcome; no
propositional hypotheses, but instantiate anyway at a thrown deserializer
error). -/
theorem claim1_result_contract_witness :
    convertYamlToMermaid (YamlLoadResult.throwsErr (("boom").data))
      = ⟨[], some (parseErrorPrefix ++ ("boom").data)⟩ :=
  (claim1_result_contract (YamlLoadResult.throwsErr (("boom").data))).2.1 _ rfl

-- ---------------------------------------------------------------------------
-- Claims C3 and C4
-- ---------------------------------------------------------------------------

/-- C3: for an OR merge of at least two compiled children, the target edges
are the concatenation of every child's target edges, the skip (exit) set is
exactly the last child's, the entry is the first child's, every non-last
child's skip sources are wired by a dashed OR edge into the next child's
entry, and `isFullyAlways` holds iff every child is fully always; and
concretely `failure() || cancelled()` compiles to two badge nodes with an OR
edge from node 1's exit to node 2's entry and two independent `Yes` target
edges. -/
theorem claim3_or_merge (c1 c2 : ConditionChainResult)
    (rest : List ConditionChainResult) (ind : List Char) :
    (mergeORChains (c1 :: c2 :: rest) ind).toTargetEdges
        = (c1 :: c2 :: rest).flatMap (·.toTargetEdges)
    ∧ (mergeORChains (c1 :: c2 :: rest) ind).skipSourceIds
        = ((c1 :: c2 :: rest).getLast (by simp)).skipSourceIds
    ∧ (mergeORChains (c1 :: c2 :: rest) ind).entryId = c1.entryId
    ∧ (mergeORChains (c1 :: c2 :: rest) ind).internalEdges
        = (c1 :: c2 :: rest).flatMap (·.internalEdges)
            ++ orPairEdges ind (c1 :: c2 :: rest)
    ∧ (∀ i ci cj, (c1 :: c2 :: rest)[i]? = some ci →
        (c1 :: c2 :: rest)[i + 1]? = some cj →
        ∀ s ∈ ci.skipSourceIds,
          (ind ++ s ++ (" -.->|OR| ").data ++ cj.entryId)
            ∈ (mergeORChains (c1 :: c2 :: rest) ind).internalEdges)
    ∧ (mergeORChains (c1 :: c2 :: rest) ind).isFullyAlways
        = (c1 :: c2 :: rest).all (·.isFullyAlways)
    ∧ generateConditionChain (("cond").data) (("failure() || cancelled()").data) (("  ").data)
        = ⟨[("  cond_p0([\"❌ Failure Only\"]):::condFailure").data,
            ("  cond_p1([\"⛔ Cancelled\"]):::condCancelled").data],
           [("  cond_p0 -.->|OR| cond_p1").data],
           ("cond_p0").data,
           [⟨("cond_p0").data, some (("Yes").data)⟩, ⟨("cond_p1").data, some (("Yes").data)⟩],
           [("cond_p1").data], false⟩ := by
  refine ⟨rfl, ?_, rfl, rfl, ?_, rfl, by decide⟩
  · have hlast : (c1 :: c2 :: rest).getLast? =
        some ((c1 :: c2 :: rest).getLast (by simp)) := List.getLast?_eq_getLast _ _
    simp [mergeORChains, hlast]
  · intro i ci cj h1 h2 s hs
    exact List.mem_append_right _ (orPairEdges_mem _ ind i ci cj h1 h2 s hs)

/-- Witness for C3 (it takes the two leading children as explicit arguments,
so instantiate at the compiled parts of `failure() || cancelled()`). -/
theorem claim3_or_merge_witness :
    (mergeORChains
      [⟨[("n0").data], [], ("p0").data, [⟨("p0").data, some (("Yes").data)⟩], [("p0").data], false⟩,
       ⟨[("n1").data], [], ("p1").data, [⟨("p1").data, some (("Yes").data)⟩], [("p1").data], false⟩]
      (("  ").data)).skipSourceIds = [("p1").data] := by
  have h := claim3_or_merge
    ⟨[("n0").data], [], ("p0").data, [⟨("p0").data, some (("Yes").data)⟩], [("p0").data], false⟩
    ⟨[("n1").data], [], ("p1").data, [⟨("p1").data, some (("Yes").data)⟩], [("p1").data], false⟩
    [] (("  ").data)
  rw [h.2.1]; decide

/-- C4: for an AND merge of at least two compiled children, the entry is the
first child's, the target edges are exactly the last child's, every non-last
child's target edges are wired by AND edges into the next child's entry, the
skip (exit) set is the concatenation of all children's skip sets, and
`isFullyAlways` holds iff that union is empty; concretely `always() && X`
compiles to a chain whose exit set is exactly the `X` node's id (non-empty). -/
theorem claim4_and_merge (c1 c2 : ConditionChainResult)
    (rest : List ConditionChainResult) (ind : List Char) :
    (mergeANDChains (c1 :: c2 :: rest) ind).entryId = c1.entryId
    ∧ (mergeANDChains (c1 :: c2 :: rest) ind).toTargetEdges
        = ((c1 :: c2 :: rest).getLast (by simp)).toTargetEdges
    ∧ (mergeANDChains (c1 :: c2 :: rest) ind).internalEdges
        = (c1 :: c2 :: rest).flatMap (·.internalEdges)
            ++ andPairEdges ind (c1 :: c2 :: rest)
    ∧ (∀ i ci cj, (c1 :: c2 :: rest)[i]? = some ci →
        (c1 :: c2 :: rest)[i + 1]? = some cj →
        ∀ e ∈ ci.toTargetEdges,
          (ind ++ e.fromId ++ (" -->|AND| ").data ++ cj.entryId)
            ∈ (mergeANDChains (c1 :: c2 :: rest) ind).internalEdges)
    ∧ (mergeANDChains (c1 :: c2 :: rest) ind).skipSourceIds
        = (c1 :: c2 :: rest).flatMap (·.skipSourceIds)
    ∧ ((mergeANDChains (c1 :: c2 :: rest) ind).isFullyAlways = true
        ↔ (c1 :: c2 :: rest).flatMap (·.skipSourceIds) = [])
    ∧ generateConditionChain (("c").data) (("always() && X").data) (("  ").data)
        = ⟨[("  c_p0([\"🔄 Always Run\"]):::condAlways").data,
            ("  c_p1\x7b\"🔧 X\"\x7d:::condCustom").data],
           [("  c_p0 -->|AND| c_p1").data],
           ("c_p0").data,
           [⟨("c_p1").data, some (("Yes").data)⟩],
           [("c_p1").data], false⟩ := by
  refine ⟨rfl, ?_, rfl, ?_, rfl, ?_, by decide⟩
  · have hlast : (c1 :: c2 :: rest).getLast? =
        some ((c1 :: c2 :: rest).getLast (by simp)) := List.getLast?_eq_getLast _ _
    simp [mergeANDChains, hlast]
  · intro i ci cj h1 h2 e he
    exact List.mem_append_right _ (andPairEdges_mem _ ind i ci cj h1 h2 e he)
  · simp [mergeANDChains, List.isEmpty_iff]

/-- Witness for C4, at the compiled parts of `always() && X`. -/
theorem claim4_and_merge_witness :
    (mergeANDChains
      [⟨[("n0").data], [], ("p0").data, [⟨("p0").data, none⟩], [], true⟩,
       ⟨[("n1").data], [], ("p1").data, [⟨("p1").data, some (("Yes").data)⟩], [("p1").data], false⟩]
      (("  ").data)).skipSourceIds = [("p1").data] := by
  have h := claim4_and_merge
    ⟨[("n0").data], [], ("p0").data, [⟨("p0").data, none⟩], [], true⟩
    ⟨[("n1").data], [], ("p1").data, [⟨("p1").data, some (("Yes").data)⟩], [("p1").data], false⟩
    [] (("  ").data)
  rw [h.2.2.2.2.1]; decide

-- ---------------------------------------------------------------------------
-- Topological sort: shape of the DFS (claims C10, C6)
-- ---------------------------------------------------------------------------

theorem lookupJob_isSome_iff (jobs : List (List Char × JobDefinition)) (x : List Char) :
    (lookupJob jobs x).isSome = true ↔ x ∈ jobs.map Prod.fst := by
  rw [lookupJob]
  cases hf : List.find? (fun p => decide (p.1 = x)) jobs with
  | none =>
    simp only [Option.map_none', Option.isSome_none, Bool.false_eq_true, false_iff]
    intro h
    rcases List.mem_map.1 h with ⟨p, hp, hpx⟩
    have := List.find?_eq_none.1 hf p hp
    simp [hpx] at this
  | some p =>
    simp only [Option.map_some', Option.isSome_some, true_iff]
    have hmem := List.mem_of_find?_eq_some hf
    have hpt := List.find?_some hf
    simp only [decide_eq_true_eq] at hpt
    exact List.mem_map.2 ⟨p, hmem, hpt⟩

/-- A `visit` call on an already-visited name is the identity. -/
theorem visit_skip (jobs : List (List Char × JobDefinition)) (fuel : Nat)
    (name : List Char) (v r : List (List Char)) (h : name ∈ v) :
    visit jobs fuel name (v, r) = (v, r) := by
  cases fuel with
  | zero => rfl
  | succ f => simp [visit, h]

/-- Abbreviation for the step function of the dependency loop in `visit`. -/
def visitStep (jobs : List (List Char × JobDefinition)) (f : Nat)
    (st : List (List Char) × List (List Char)) (dep : List Char) :
    List (List Char) × List (List Char) :=
  if (lookupJob jobs dep).isSome then visit jobs f dep st else st

theorem visit_succ_unfold (jobs : List (List Char × JobDefinition)) (f : Nat)
    (name : List Char) (v r : List (List Char)) (hv : name ∉ v)
    (job : JobDefinition) (hl : lookupJob jobs name = some job) :
    visit jobs (f + 1) name (v, r) =
      (((jobNeeds job).foldl (visitStep jobs f) (name :: v, r)).1,
       ((jobNeeds job).foldl (visitStep jobs f) (name :: v, r)).2 ++ [name]) := by
  simp only [visit, if_neg hv, hl]
  rfl

theorem visit_succ_unfold_none (jobs : List (List Char × JobDefinition)) (f : Nat)
    (name : List Char) (v r : List (List Char)) (hv : name ∉ v)
    (hl : lookupJob jobs name = none) :
    visit jobs (f + 1) name (v, r) = (name :: v, r ++ [name]) := by
  simp only [visit, if_neg hv, hl]

/-- Shape of a single `visit` call: the state is only ever extended, the
newly visited and newly completed names are the same (fresh, duplicate-free)
collection, every new name is the visited one or an existing job key, and
with positive fuel the visited name ends up recorded. -/
theorem visit_extends (jobs : List (List Char × JobDefinition)) :
    ∀ (fuel : Nat) (name : List Char) (v r : List (List Char)),
      ∃ Δ Δ' : List (List Char),
        visit jobs fuel name (v, r) = (Δ ++ v, r ++ Δ')
        ∧ Δ.Perm Δ'
        ∧ Δ.Nodup
        ∧ (∀ x ∈ Δ, x ∉ v)
        ∧ (∀ x ∈ Δ, x = name ∨ x ∈ jobs.map Prod.fst)
        ∧ (0 < fuel → name ∈ Δ ++ v) := by
  intro fuel
  induction fuel with
  | zero =>
    intro name v r
    exact ⟨[], [], by simp [visit], List.Perm.refl _, List.nodup_nil,
      by simp, by simp, by omega⟩
  | succ f ih =>
    have foldlem : ∀ (deps : List (List Char)) (v r : List (List Char)),
        ∃ Δ Δ' : List (List Char),
          deps.foldl (visitStep jobs f) (v, r) = (Δ ++ v, r ++ Δ')
          ∧ Δ.Perm Δ'
          ∧ Δ.Nodup
          ∧ (∀ x ∈ Δ, x ∉ v)
          ∧ (∀ x ∈ Δ, x ∈ jobs.map Prod.fst) := by
      intro deps
      induction deps with
      | nil =>
        intro v r
        exact ⟨[], [], by simp, List.Perm.refl _, List.nodup_nil, by simp, by simp⟩
      | cons d ds ihd =>
        intro v r
        by_cases hd : (lookupJob jobs d).isSome
        · obtain ⟨Δ1, Δ1', h1, hp1, hn1, hnv1, hk1, _⟩ := ih d v r
          obtain ⟨Δ2, Δ2', h2, hp2, hn2, hnv2, hk2⟩ := ihd (Δ1 ++ v) (r ++ Δ1')
          refine ⟨Δ2 ++ Δ1, Δ1' ++ Δ2', ?_, ?_, ?_, ?_, ?_⟩
          · rw [List.foldl_cons]
            show ds.foldl (visitStep jobs f) (visitStep jobs f (v, r) d) = _
            rw [show visitStep jobs f (v, r) d = (Δ1 ++ v, r ++ Δ1') by
              simp [visitStep, hd, h1]]
            rw [h2, List.append_assoc, List.append_assoc]
          · exact (List.perm_append_comm).trans (hp1.append hp2)
          · exact List.Nodup.append hn2 hn1
              (fun x h2x h1x => hnv2 x h2x (List.mem_append_left _ h1x))
          · intro x hx
            rcases List.mem_append.1 hx with h | h
            · exact fun hxv => hnv2 x h (List.mem_append_right _ hxv)
            · exact hnv1 x h
          · intro x hx
            rcases List.mem_append.1 hx with h | h
            · exact hk2 x h
            · rcases hk1 x h with rfl | hk
              · exact (lookupJob_isSome_iff jobs x).1 hd
              · exact hk
        · obtain ⟨Δ2, Δ2', h2, hp2, hn2, hnv2, hk2⟩ := ihd v r
          refine ⟨Δ2, Δ2', ?_, hp2, hn2, hnv2, hk2⟩
          rw [List.foldl_cons]
          show ds.foldl (visitStep jobs f) (visitStep jobs f (v, r) d) = _
          rw [show visitStep jobs f (v, r) d = (v, r) by simp [visitStep, hd]]
          exact h2
    intro name v r
    by_cases hv : name ∈ v
    · exact ⟨[], [], by simp [visit, hv], List.Perm.refl _, List.nodup_nil,
        by simp, by simp, fun _ => by simpa using hv⟩
    · cases hl : lookupJob jobs name with
      | none =>
        refine ⟨[name], [name], visit_succ_unfold_none jobs f name v r hv hl,
          List.Perm.refl _, List.nodup_singleton _, by simpa using hv, by simp, by simp⟩
      | some job =>
        obtain ⟨Δi, Δi', hfold, hperm, hnodup, hnv, hkeys⟩ :=
          foldlem (jobNeeds job) (name :: v) r
        have hnn : name ∉ Δi := fun h => hnv name h (by simp)
        refine ⟨Δi ++ [name], Δi' ++ [name], ?_, ?_, ?_, ?_, ?_, ?_⟩
        · rw [visit_succ_unfold jobs f name v r hv job hl, hfold]
          simp [List.append_assoc]
        · exact hperm.append (List.Perm.refl _)
        · exact List.Nodup.append hnodup (List.nodup_singleton _)
            (fun x hx hx1 => by
              have : x = name := by simpa using hx1
              exact hnn (this ▸ hx))
        · intro x hx
          rcases List.mem_append.1 hx with h | h
          · intro hxv; exact hnv x h (List.mem_cons_of_mem _ hxv)
          · have : x = name := by simpa using h
            exact this ▸ hv
        · intro x hx
          rcases List.mem_append.1 hx with h | h
          · exact Or.inr (hkeys x h)
          · exact Or.inl (by simpa using h)
        · intro _
          exact List.mem_append_left _ (List.mem_append_right _ (by simp))

/-- Top-level accumulation of `visit` calls over the declared key order. -/
theorem topFold_perm (jobs : List (List Char × JobDefinition)) :
    ∀ (names : List (List Char)) (v r : List (List Char)),
      (∀ n ∈ names, n ∈ jobs.map Prod.fst) →
      v.Perm r → v.Nodup → (∀ x ∈ v, x ∈ jobs.map Prod.fst) →
      (names.foldl (fun st name => visit jobs (jobs.length + 1) name st) (v, r)).1.Perm
        (names.foldl (fun st name => visit jobs (jobs.length + 1) name st) (v, r)).2
      ∧ (names.foldl (fun st name => visit jobs (jobs.length + 1) name st) (v, r)).1.Nodup
      ∧ (∀ x ∈ (names.foldl (fun st name => visit jobs (jobs.length + 1) name st) (v, r)).1,
          x ∈ jobs.map Prod.fst)
      ∧ (∀ n ∈ names,
          n ∈ (names.foldl (fun st name => visit jobs (jobs.length + 1) name st) (v, r)).1)
      ∧ (∀ x ∈ v,
          x ∈ (names.foldl (fun st name => visit jobs (jobs.length + 1) name st) (v, r)).1) := by
  intro names
  induction names with
  | nil =>
    intro v r h1 h2 h3 h4
    exact ⟨h2, h3, h4, by simp, fun x hx => hx⟩
  | cons n ns ihn =>
    intro v r hnames hperm hnodup hkeys
    obtain ⟨Δ, Δ', hstep, hp, hn, hnv, hk, hmem⟩ :=
      visit_extends jobs (jobs.length + 1) n v r
    simp only [List.foldl_cons, hstep]
    have hperm' : (Δ ++ v).Perm (r ++ Δ') :=
      ((hp.append hperm).trans List.perm_append_comm)
    have hnodup' : (Δ ++ v).Nodup := List.Nodup.append hn hnodup hnv
    have hkeys' : ∀ x ∈ Δ ++ v, x ∈ jobs.map Prod.fst := by
      intro x hx
      rcases List.mem_append.1 hx with h | h
      · rcases hk x h with rfl | hh
        · exact hnames x (by simp)
        · exact hh
      · exact hkeys x h
    have main := ihn (Δ ++ v) (r ++ Δ') (fun m hm => hnames m (by simp [hm]))
      hperm' hnodup' hkeys'
    refine ⟨main.1, main.2.1, main.2.2.1, ?_, ?_⟩
    · intro m hm
      rcases List.mem_cons.1 hm with rfl | hm'
      · exact main.2.2.2.2 m (hmem (by omega))
      · exact main.2.2.2.1 m hm'
    · intro x hx
      exact main.2.2.2.2 x (List.mem_append_right _ hx)

/-- C10: for every job mapping (cycles and dangling `needs` included),
`topologicalSort` returns a permutation of the declared key list: every job
name appears exactly once, none dropped or duplicated, and the traversal
terminates. -/
theorem claim10_topsort_permutation (jobs : List (List Char × JobDefinition))
    (hnd : (jobs.map Prod.fst).Nodup) :
    (topologicalSort jobs).Perm (jobs.map Prod.fst)
    ∧ (topologicalSort jobs).Nodup := by
  have main := topFold_perm jobs (jobs.map Prod.fst) [] []
    (fun n hn => hn) (List.Perm.refl _) List.nodup_nil (by simp)
  set st := (jobs.map Prod.fst).foldl
    (fun st name => visit jobs (jobs.length + 1) name st) ([], []) with hst
  have hVperm : st.1.Perm st.2 := main.1
  have hVnodup : st.1.Nodup := main.2.1
  have hVsub : st.1 ⊆ jobs.map Prod.fst := fun x hx => main.2.2.1 x hx
  have hVsup : ∀ n ∈ jobs.map Prod.fst, n ∈ st.1 := main.2.2.2.1
  have hVkeys : st.1.Perm (jobs.map Prod.fst) :=
    List.Subperm.antisymm (hVnodup.subperm hVsub)
      (hnd.subperm (fun x hx => hVsup x hx))
  have horder : topologicalSort jobs = st.2 := rfl
  constructor
  · rw [horder]
    exact (hVperm.symm.trans hVkeys)
  · rw [horder]
    exact hVperm.nodup_iff.1 hVnodup

-- ---------------------------------------------------------------------------
-- Claim C6: DFS respects an acyclic `needs` relation
-- ---------------------------------------------------------------------------

/-- `needsRel jobs d j`: job `j` is declared and names `d` in its iterated
dependency list, and `d` itself is declared (the traversal only follows
dependencies that exist in the mapping). -/
def needsRel (jobs : List (List Char × JobDefinition)) (d j : List Char) : Prop :=
  ∃ jd, lookupJob jobs j = some jd ∧ d ∈ jobNeeds jd ∧ (lookupJob jobs d).isSome = true

/-- Invariant of the DFS state: visited and completed lists are
duplicate-free, completed ⊆ visited, every completed job's existing
dependencies are visited, and they precede it in the completed list unless
they are still on the stack (visited but not completed). -/
structure SortState (jobs : List (List Char × JobDefinition))
    (v r : List (List Char)) : Prop where
  vnodup : v.Nodup
  rsub : ∀ x ∈ r, x ∈ v
  rnodup : r.Nodup
  depsVisited : ∀ n ∈ r, ∀ d, needsRel jobs d n → d ∈ v
  depsOrdered : ∀ l1 n l2, r = l1 ++ n :: l2 → ∀ d, needsRel jobs d n →
    d ∈ l1 ∨ (d ∈ v ∧ d ∉ r)

theorem SortState.push {jobs : List (List Char × JobDefinition)}
    {v r : List (List Char)} (h : SortState jobs v r) (name : List Char)
    (hv : name ∉ v) : SortState jobs (name :: v) r := by
  refine ⟨List.nodup_cons.2 ⟨hv, h.vnodup⟩, fun x hx => List.mem_cons_of_mem _ (h.rsub x hx),
    h.rnodup, fun n hn d hd => List.mem_cons_of_mem _ (h.depsVisited n hn d hd), ?_⟩
  intro l1 n l2 hsplit d hd
  rcases h.depsOrdered l1 n l2 hsplit d hd with hin | ⟨hdv, hdr⟩
  · exact Or.inl hin
  · exact Or.inr ⟨List.mem_cons_of_mem _ hdv, hdr⟩

/-- A state extension with fresh matching visited/completed additions leaves
the stack (visited minus completed) unchanged as a set. -/
theorem stack_preserved {Δ Δ' v r : List (List Char)}
    (hperm : Δ.Perm Δ') (hdisj : ∀ x ∈ Δ, x ∉ v) :
    ∀ x, (x ∈ Δ ++ v ∧ x ∉ r ++ Δ') ↔ (x ∈ v ∧ x ∉ r) := by
  intro x
  constructor
  · rintro ⟨hxv, hxr⟩
    rcases List.mem_append.1 hxv with h | h
    · exact absurd (List.mem_append_right r (hperm.mem_iff.1 h)) hxr
    · exact ⟨h, fun hr => hxr (List.mem_append_left _ hr)⟩
  · rintro ⟨hxv, hxr⟩
    refine ⟨List.mem_append_right _ hxv, ?_⟩
    intro hmem
    rcases List.mem_append.1 hmem with h | h
    · exact hxr h
    · exact hdisj x (hperm.mem_iff.2 h) hxv

/-- Splitting a list that ends in a single appended element. -/
theorem split_concat {α : Type} (l1 : List α) (n : α) (l2 R : List α) (y : α)
    (h : l1 ++ n :: l2 = R ++ [y]) :
    (l1 = R ∧ n = y ∧ l2 = []) ∨ ∃ l2', l2 = l2' ++ [y] ∧ R = l1 ++ n :: l2' := by
  rcases List.eq_nil_or_concat l2 with rfl | ⟨L, a, rfl⟩
  · left
    have := List.append_inj' h (by simp)
    exact ⟨this.1, by simpa using this.2, rfl⟩
  · right
    rw [List.concat_eq_append] at h ⊢
    have h' : (l1 ++ n :: L) ++ [a] = R ++ [y] := by
      rw [← h]; simp
    have := List.append_inj' h' (by simp)
    exact ⟨L, by simp [this.2.symm], this.1.symm⟩

/-- In a duplicate-free list, the split around a fixed element is unique. -/
theorem split_nodup_unique {α : Type} :
    ∀ (l1 l2 l1' l2' : List α) (n : α),
      (l1 ++ n :: l2).Nodup → l1 ++ n :: l2 = l1' ++ n :: l2' →
      l1 = l1' ∧ l2 = l2' := by
  intro l1
  induction l1 with
  | nil =>
    intro l2 l1' l2' n hnd h
    cases l1' with
    | nil => simpa using h
    | cons a t =>
      exfalso
      simp only [List.nil_append, List.cons_append, List.cons.injEq] at h
      obtain ⟨rfl, h2⟩ := h
      have hmem : n ∈ l2 := h2 ▸ List.mem_append_right t (by simp)
      have hnd' : (n :: l2).Nodup := by simpa using hnd
      exact (List.nodup_cons.1 hnd').1 hmem
  | cons a t ih =>
    intro l2 l1' l2' n hnd h
    cases l1' with
    | nil =>
      exfalso
      simp only [List.cons_append, List.nil_append, List.cons.injEq] at h
      obtain ⟨rfl, h2⟩ := h
      have hmem : a ∈ t ++ a :: l2 := List.mem_append_right t (by simp)
      have hnd' : (a :: (t ++ a :: l2)).Nodup := by simpa using hnd
      exact (List.nodup_cons.1 hnd').1 hmem
    | cons b t' =>
      simp only [List.cons_append, List.cons.injEq] at h
      obtain ⟨rfl, h2⟩ := h
      have hnd' : (a :: (t ++ n :: l2)).Nodup := by simpa using hnd
      have := ih l2 t' l2' n (List.nodup_cons.1 hnd').2 h2
      exact ⟨by rw [this.1], this.2⟩

/-- Filtering on non-membership is antitone in the excluded set. -/
theorem filter_notmem_mono (keys : List (List Char)) :
    ∀ (v v' : List (List Char)), (∀ x ∈ v, x ∈ v') →
      (keys.filter (fun k => decide (k ∉ v'))).length ≤
        (keys.filter (fun k => decide (k ∉ v))).length := by
  induction keys with
  | nil => intro v v' h; simp
  | cons k ks ih =>
    intro v v' h
    by_cases h1 : k ∉ v'
    · have h2 : k ∉ v := fun hk => h1 (h k hk)
      rw [List.filter_cons, if_pos (by exact decide_eq_true h1),
        List.filter_cons, if_pos (by exact decide_eq_true h2)]
      exact Nat.succ_le_succ (ih v v' h)
    · rw [List.filter_cons, if_neg (by simpa using h1)]
      by_cases h2 : k ∉ v
      · rw [List.filter_cons, if_pos (by exact decide_eq_true h2)]
        exact Nat.le_succ_of_le (ih v v' h)
      · rw [List.filter_cons, if_neg (by simpa using h2)]
        exact ih v v' h

/-- Visiting a fresh declared name strictly shrinks the unvisited key set. -/
theorem filter_notmem_lt (keys : List (List Char)) :
    ∀ (v : List (List Char)) (name : List Char), name ∈ keys → name ∉ v →
      (keys.filter (fun k => decide (k ∉ name :: v))).length <
        (keys.filter (fun k => decide (k ∉ v))).length := by
  induction keys with
  | nil => intro v name h; simp at h
  | cons k ks ih =>
    intro v name hk hv
    by_cases heq : k = name
    · subst heq
      rw [List.filter_cons, if_neg (by simp), List.filter_cons,
        if_pos (by exact decide_eq_true hv)]
      have := filter_notmem_mono ks v (k :: v) (fun x hx => List.mem_cons_of_mem _ hx)
      simp only [List.length_cons]
      omega
    · have hk' : name ∈ ks := by
        rcases List.mem_cons.1 hk with h | h
        · exact absurd h.symm heq
        · exact h
      by_cases h2 : k ∉ v
      · have h1 : k ∉ name :: v := by
          intro hmem
          rcases List.mem_cons.1 hmem with h | h
          · exact heq h
          · exact h2 h
        rw [List.filter_cons, if_pos (by exact decide_eq_true h1),
          List.filter_cons, if_pos (by exact decide_eq_true h2)]
        exact Nat.succ_lt_succ (ih v name hk' hv)
      · have h1 : ¬ (k ∉ name :: v) := by
          simp only [not_not] at h2 ⊢
          exact List.mem_cons_of_mem _ h2
        rw [List.filter_cons, if_neg (by simpa using h1),
          List.filter_cons, if_neg (by simpa using h2)]
        exact ih v name hk' hv

/-- Main invariant of the DFS under an acyclic `needs` relation: a `visit`
call from a well-formed state whose stack is forward-reachable from the
visited name extends the state with fresh matching names, all of them
backward-reachable to the visited name, and preserves well-formedness. -/
theorem visit_sorted (jobs : List (List Char × JobDefinition))
    (hacyc : ∀ x, ¬ Relation.TransGen (needsRel jobs) x x) :
    ∀ (fuel : Nat) (name : List Char) (v r : List (List Char)),
      name ∈ jobs.map Prod.fst →
      ((jobs.map Prod.fst).filter (fun k => decide (k ∉ v))).length < fuel →
      SortState jobs v r →
      (∀ a ∈ v, a ∉ r → Relation.ReflTransGen (needsRel jobs) name a) →
      ∃ Δ Δ' : List (List Char),
        visit jobs fuel name (v, r) = (Δ ++ v, r ++ Δ')
        ∧ Δ.Perm Δ'
        ∧ Δ.Nodup
        ∧ (∀ x ∈ Δ, x ∉ v)
        ∧ (∀ x ∈ Δ, Relation.ReflTransGen (needsRel jobs) x name)
        ∧ name ∈ Δ ++ v
        ∧ SortState jobs (Δ ++ v) (r ++ Δ') := by
  intro fuel
  induction fuel with
  | zero => intro name v r _ hfuel _ _; omega
  | succ f ih =>
    intro name v r hname hfuel hss hstack
    by_cases hv : name ∈ v
    · refine ⟨[], [], by simp [visit_skip _ _ _ _ _ hv], List.Perm.refl _, List.nodup_nil,
        by simp, by simp, by simpa using hv, by simpa using hss⟩
    · cases hl : lookupJob jobs name with
      | none =>
        exfalso
        have := (lookupJob_isSome_iff jobs name).2 hname
        rw [hl] at this
        simp at this
      | some job =>
        have hss0 : SortState jobs (name :: v) r := hss.push name hv
        have hstack0 : ∀ a ∈ name :: v, a ∉ r →
            Relation.ReflTransGen (needsRel jobs) name a := by
          intro a ha har
          rcases List.mem_cons.1 ha with rfl | ha'
          · exact Relation.ReflTransGen.refl
          · exact hstack a ha' har
        have hfuel0 : ((jobs.map Prod.fst).filter
            (fun k => decide (k ∉ name :: v))).length < f := by
          have h1 := filter_notmem_lt (jobs.map Prod.fst) v name hname hv
          omega
        have foldlem : ∀ (deps : List (List Char)), (∀ d ∈ deps, d ∈ jobNeeds job) →
            ∀ (v' r' : List (List Char)),
              SortState jobs v' r' →
              ((jobs.map Prod.fst).filter (fun k => decide (k ∉ v'))).length < f →
              (∀ a ∈ v', a ∉ r' → Relation.ReflTransGen (needsRel jobs) name a) →
              ∃ Δ Δ' : List (List Char),
                deps.foldl (visitStep jobs f) (v', r') = (Δ ++ v', r' ++ Δ')
                ∧ Δ.Perm Δ'
                ∧ Δ.Nodup
                ∧ (∀ x ∈ Δ, x ∉ v')
                ∧ (∀ x ∈ Δ, Relation.ReflTransGen (needsRel jobs) x name)
                ∧ (∀ d ∈ deps, (lookupJob jobs d).isSome = true → d ∈ Δ ++ v')
                ∧ SortState jobs (Δ ++ v') (r' ++ Δ') := by
          intro deps
          induction deps with
          | nil =>
            intro _ v' r' hss' _ _
            exact ⟨[], [], by simp, List.Perm.refl _, List.nodup_nil, by simp, by simp,
              by simp, by simpa using hss'⟩
          | cons d ds ihd =>
            intro hdeps v' r' hss' hfuel' hstack'
            have hdeps' : ∀ x ∈ ds, x ∈ jobNeeds job := fun x hx => hdeps x (by simp [hx])
            by_cases hd : (lookupJob jobs d).isSome = true
            · by_cases hdv : d ∈ v'
              · obtain ⟨Δ, Δ', h2, hp2, hn2, hnv2, hr2, hvis2, hss2⟩ :=
                  ihd hdeps' v' r' hss' hfuel' hstack'
                refine ⟨Δ, Δ', ?_, hp2, hn2, hnv2, hr2, ?_, hss2⟩
                · rw [List.foldl_cons]
                  show ds.foldl (visitStep jobs f) (visitStep jobs f (v', r') d) = _
                  rw [show visitStep jobs f (v', r') d = (v', r') by
                    simp [visitStep, hd, visit_skip _ _ _ _ _ hdv]]
                  exact h2
                · intro x hx hxs
                  rcases List.mem_cons.1 hx with rfl | hx'
                  · exact List.mem_append_right _ hdv
                  · exact hvis2 x hx' hxs
              · have hrel : needsRel jobs d name := ⟨job, hl, hdeps d (by simp), hd⟩
                have hdk : d ∈ jobs.map Prod.fst := (lookupJob_isSome_iff jobs d).1 hd
                have hdstack : ∀ a ∈ v', a ∉ r' →
                    Relation.ReflTransGen (needsRel jobs) d a :=
                  fun a ha har => Relation.ReflTransGen.head hrel (hstack' a ha har)
                obtain ⟨Δ1, Δ1', h1, hp1, hn1, hnv1, hr1, hm1, hss1⟩ :=
                  ih d v' r' hdk hfuel' hss' hdstack
                have hstack1 : ∀ a ∈ Δ1 ++ v', a ∉ r' ++ Δ1' →
                    Relation.ReflTransGen (needsRel jobs) name a := by
                  intro a ha har
                  have hsp := (stack_preserved hp1 hnv1 a).1 ⟨ha, har⟩
                  exact hstack' a hsp.1 hsp.2
                have hfuel1 : ((jobs.map Prod.fst).filter
                    (fun k => decide (k ∉ Δ1 ++ v'))).length < f := by
                  have := filter_notmem_mono (jobs.map Prod.fst) v' (Δ1 ++ v')
                    (fun x hx => List.mem_append_right _ hx)
                  omega
                obtain ⟨Δ2, Δ2', h2, hp2, hn2, hnv2, hr2, hvis2, hss2⟩ :=
                  ihd hdeps' (Δ1 ++ v') (r' ++ Δ1') hss1 hfuel1 hstack1
                refine ⟨Δ2 ++ Δ1, Δ1' ++ Δ2', ?_, ?_, ?_, ?_, ?_, ?_, ?_⟩
                · rw [List.foldl_cons]
                  show ds.foldl (visitStep jobs f) (visitStep jobs f (v', r') d) = _
                  rw [show visitStep jobs f (v', r') d = (Δ1 ++ v', r' ++ Δ1') by
                    simp [visitStep, hd, h1]]
                  rw [h2]
                  simp [List.append_assoc]
                · exact (List.perm_append_comm).trans (hp1.append hp2)
                · exact List.Nodup.append hn2 hn1
                    (fun x h2x h1x => hnv2 x h2x (List.mem_append_left _ h1x))
                · intro x hx
                  rcases List.mem_append.1 hx with h | h
                  · exact fun hxv => hnv2 x h (List.mem_append_right _ hxv)
                  · exact hnv1 x h
                · intro x hx
                  rcases List.mem_append.1 hx with h | h
                  · exact hr2 x h
                  · exact Relation.ReflTransGen.tail (hr1 x h) hrel
                · intro e he hes
                  rcases List.mem_cons.1 he with rfl | he'
                  · rcases List.mem_append.1 hm1 with h | h
                    · exact List.mem_append_left _ (List.mem_append_right _ h)
                    · exact List.mem_append_right _ h
                  · have := hvis2 e he' hes
                    rcases List.mem_append.1 this with h | h
                    · exact List.mem_append_left _ (List.mem_append_left _ h)
                    · rcases List.mem_append.1 h with h' | h'
                      · exact List.mem_append_left _ (List.mem_append_right _ h')
                      · exact List.mem_append_right _ h'
                · simpa [List.append_assoc] using hss2
            · obtain ⟨Δ, Δ', h2, hp2, hn2, hnv2, hr2, hvis2, hss2⟩ :=
                ihd hdeps' v' r' hss' hfuel' hstack'
              refine ⟨Δ, Δ', ?_, hp2, hn2, hnv2, hr2, ?_, hss2⟩
              · rw [List.foldl_cons]
                show ds.foldl (visitStep jobs f) (visitStep jobs f (v', r') d) = _
                rw [show visitStep jobs f (v', r') d = (v', r') by simp [visitStep, hd]]
                exact h2
              · intro x hx hxs
                rcases List.mem_cons.1 hx with rfl | hx'
                · exact absurd hxs hd
                · exact hvis2 x hx' hxs
        obtain ⟨Δf, Δf', hfold, hpf, hnf, hnvf, hrf, hvisf, hssf⟩ :=
          foldlem (jobNeeds job) (fun d hd => hd) (name :: v) r hss0 hfuel0 hstack0
        have hnn : name ∉ Δf := fun h => hnvf name h (by simp)
        have hnr : name ∉ r := fun h => hv (hss.rsub name h)
        have hnΔf' : name ∉ Δf' := fun h => hnn (hpf.mem_iff.2 h)
        have hdepsV : ∀ d, needsRel jobs d name → d ∈ Δf ++ name :: v := by
          intro d hd
          obtain ⟨jd, hl', hdmem, hdsome⟩ := hd
          have hjd : jd = job := Option.some.inj (hl'.symm.trans hl)
          exact hvisf d (hjd ▸ hdmem) hdsome
        have hgoal : SortState jobs (Δf ++ name :: v) ((r ++ Δf') ++ [name]) := by
          constructor
          · exact hssf.vnodup
          · intro x hx
            rcases List.mem_append.1 hx with h | h
            · exact hssf.rsub x h
            · have hxn : x = name := by simpa using h
              exact hxn ▸ List.mem_append_right _ (by simp)
          · refine List.Nodup.append hssf.rnodup (List.nodup_singleton _) ?_
            intro x hx hx1
            have hxn : x = name := by simpa using hx1
            subst hxn
            rcases List.mem_append.1 hx with h | h
            · exact hnr h
            · exact hnΔf' h
          · intro n hn d hd
            rcases List.mem_append.1 hn with h | h
            · exact hssf.depsVisited n h d hd
            · have hxn : n = name := by simpa using h
              subst hxn
              exact hdepsV d hd
          · intro l1 n l2 hsplit d hd
            rcases split_concat l1 n l2 (r ++ Δf') name hsplit.symm with
              ⟨h1, h2, h3⟩ | ⟨l2', h2, hR⟩
            · subst h1; subst h3
              rw [h2] at hd
              have hdV : d ∈ Δf ++ name :: v := hdepsV d hd
              by_cases hdR : d ∈ r ++ Δf'
              · exact Or.inl hdR
              · exfalso
                have hstk := (stack_preserved hpf hnvf d).1 ⟨hdV, hdR⟩
                rcases List.mem_cons.1 hstk.1 with rfl | hdv'
                · exact hacyc d (Relation.TransGen.single hd)
                · exact hacyc name
                    (Relation.TransGen.tail' (hstack d hdv' hstk.2) hd)
            · rcases hssf.depsOrdered l1 n l2' hR d hd with hin | ⟨hdv'', hdnr⟩
              · exact Or.inl hin
              · by_cases hdname : d = name
                · subst hdname
                  exfalso
                  have hnR : n ∈ r ++ Δf' := by
                    rw [hR]; exact List.mem_append_right _ (by simp)
                  rcases List.mem_append.1 hnR with hnr' | hnΔ
                  · obtain ⟨la, lb, hla⟩ := List.append_of_mem hnr'
                    have hsplit2 : r ++ Δf' = la ++ n :: (lb ++ Δf') := by
                      rw [hla]; simp
                    have huniq := split_nodup_unique l1 l2' la (lb ++ Δf') n
                      (by rw [← hR]; exact hssf.rnodup) (hR.symm.trans hsplit2)
                    rcases hss.depsOrdered la n lb hla d hd with hin2 | ⟨hvv, _⟩
                    · exact hdnr (by
                        rw [hla]
                        exact List.mem_append_left _ (List.mem_append_left _ hin2))
                    · exact hv hvv
                  · have hnΔf : n ∈ Δf := hpf.mem_iff.2 hnΔ
                    exact hacyc d (Relation.TransGen.head' hd (hrf n hnΔf))
                · refine Or.inr ⟨hdv'', ?_⟩
                  intro hmem
                  rcases List.mem_append.1 hmem with h | h
                  · exact hdnr h
                  · exact hdname (by simpa using h)
        refine ⟨Δf ++ [name], Δf' ++ [name], ?_, ?_, ?_, ?_, ?_, ?_, ?_⟩
        · rw [visit_succ_unfold jobs f name v r hv job hl, hfold]
          simp [List.append_assoc]
        · exact hpf.append (List.Perm.refl _)
        · refine List.Nodup.append hnf (List.nodup_singleton _) ?_
          intro x hx hx1
          have hxn : x = name := by simpa using hx1
          exact hnn (hxn ▸ hx)
        · intro x hx
          rcases List.mem_append.1 hx with h | h
          · exact fun hxv => hnvf x h (List.mem_cons_of_mem _ hxv)
          · have hxn : x = name := by simpa using h
            exact hxn ▸ hv
        · intro x hx
          rcases List.mem_append.1 hx with h | h
          · exact hrf x h
          · have hxn : x = name := by simpa using h
            exact hxn ▸ Relation.ReflTransGen.refl
        · exact List.mem_append_left _ (List.mem_append_right _ (by simp))
        · simpa [List.append_assoc] using hgoal

/-- Top-level accumulation for C6: iterating `visit` over declared names
from an empty-stack well-formed state keeps the state well-formed with an
empty stack. -/
theorem topFold_sorted (jobs : List (List Char × JobDefinition))
    (hacyc : ∀ x, ¬ Relation.TransGen (needsRel jobs) x x) :
    ∀ (names : List (List Char)) (v r : List (List Char)),
      (∀ n ∈ names, n ∈ jobs.map Prod.fst) →
      SortState jobs v r →
      (∀ x ∈ v, x ∈ r) →
      SortState jobs
        (names.foldl (fun st name => visit jobs (jobs.length + 1) name st) (v, r)).1
        (names.foldl (fun st name => visit jobs (jobs.length + 1) name st) (v, r)).2
      ∧ (∀ x ∈ (names.foldl (fun st name => visit jobs (jobs.length + 1) name st) (v, r)).1,
          x ∈ (names.foldl (fun st name => visit jobs (jobs.length + 1) name st) (v, r)).2) := by
  intro names
  induction names with
  | nil => intro v r _ hss hvr; exact ⟨hss, hvr⟩
  | cons n ns ihn =>
    intro v r hnames hss hvr
    have hfuel : ((jobs.map Prod.fst).filter (fun k => decide (k ∉ v))).length
        < jobs.length + 1 := by
      have h1 : ((jobs.map Prod.fst).filter (fun k => decide (k ∉ v))).length
          ≤ (jobs.map Prod.fst).length := List.length_filter_le _ _
      have h2 : (jobs.map Prod.fst).length = jobs.length := List.length_map _ _
      omega
    have hstack : ∀ a ∈ v, a ∉ r → Relation.ReflTransGen (needsRel jobs) n a :=
      fun a ha har => absurd (hvr a ha) har
    obtain ⟨Δ, Δ', hstep, hp, hn, hnv, _, _, hss'⟩ :=
      visit_sorted jobs hacyc (jobs.length + 1) n v r (hnames n (by simp)) hfuel hss hstack
    have hvr' : ∀ x ∈ Δ ++ v, x ∈ r ++ Δ' := by
      intro x hx
      by_cases hxr : x ∈ r ++ Δ'
      · exact hxr
      · exfalso
        have := (stack_preserved hp hnv x).1 ⟨hx, hxr⟩
        exact this.2 (hvr x this.1)
    have := ihn (Δ ++ v) (r ++ Δ') (fun m hm => hnames m (by simp [hm])) hss' hvr'
    simpa [List.foldl_cons, hstep] using this

/-- C6: when the `needs` relation (restricted to declared jobs) is acyclic,
the order produced by `topologicalSort` is duplicate-free and places every
job strictly after each declared job in its needs list. -/
theorem claim6_topsort_respects_needs (jobs : List (List Char × JobDefinition))
    (hacyc : ∀ x, ¬ Relation.TransGen (needsRel jobs) x x) :
    (topologicalSort jobs).Nodup
    ∧ ∀ d j, needsRel jobs d j →
        ∃ l1 l2, topologicalSort jobs = l1 ++ j :: l2 ∧ d ∈ l1 := by
  have hinit : SortState jobs [] [] :=
    ⟨List.nodup_nil, by simp, List.nodup_nil, by simp, by intro l1 n l2 h; simp at h⟩
  have hsorted := topFold_sorted jobs hacyc (jobs.map Prod.fst) [] []
    (fun n hn => hn) hinit (by simp)
  have hperm := topFold_perm jobs (jobs.map Prod.fst) [] []
    (fun n hn => hn) (List.Perm.refl _) List.nodup_nil (by simp)
  set st := (jobs.map Prod.fst).foldl
    (fun st name => visit jobs (jobs.length + 1) name st) ([], []) with hst
  have horder : topologicalSort jobs = st.2 := rfl
  refine ⟨by rw [horder]; exact hsorted.1.rnodup, ?_⟩
  intro d j hdj
  have hjkeys : j ∈ jobs.map Prod.fst := by
    obtain ⟨jd, hl', _, _⟩ := hdj
    exact (lookupJob_isSome_iff jobs j).1 (by rw [hl']; rfl)
  have hjV : j ∈ st.1 := hperm.2.2.2.1 j hjkeys
  have hjR : j ∈ st.2 := hsorted.2 j hjV
  obtain ⟨l1, l2, hsplit⟩ := List.append_of_mem hjR
  refine ⟨l1, l2, by rw [horder, hsplit], ?_⟩
  rcases hsorted.1.depsOrdered l1 j l2 hsplit d hdj with hin | ⟨hdv, hdr⟩
  · exact hin
  · exact absurd (hsorted.2 d hdv) hdr

/-- Any rank function increasing along `needsRel` certifies acyclicity. -/
theorem acyclic_of_rank (jobs : List (List Char × JobDefinition))
    (rank : List Char → Nat)
    (hstep : ∀ x y, needsRel jobs x y → rank x < rank y) :
    ∀ x, ¬ Relation.TransGen (needsRel jobs) x x := by
  have mono : ∀ x y, Relation.TransGen (needsRel jobs) x y → rank x < rank y := by
    intro x y h
    induction h with
    | single h => exact hstep _ _ h
    | tail _ h2 ih => exact lt_trans ih (hstep _ _ h2)
  exact fun x hx => lt_irrefl _ (mono x x hx)

def c6jobs : List (List Char × JobDefinition) :=
  [((("a").data), ⟨none, none, none, none, none, none⟩),
   ((("b").data), ⟨none, none, some (Sum.inl (("a").data)), none, none, none⟩)]

/-- Witness for C6, at the acyclic two-job mapping `a`, `b needs a`. -/
theorem claim6_topsort_respects_needs_witness :
    ∃ l1 l2, topologicalSort c6jobs = l1 ++ (("b").data) :: l2 ∧ (("a").data) ∈ l1 := by
  have hstep : ∀ x y, needsRel c6jobs x y →
      (fun s => if s = ("b").data then 1 else 0) x <
        (fun s => if s = ("b").data then 1 else 0) y := by
    intro x y hxy
    obtain ⟨jd, hl', hmem, _⟩ := hxy
    by_cases hyb : y = ("b").data
    · subst hyb
      have hjd : jd = ⟨none, none, some (Sum.inl (("a").data)), none, none, none⟩ := by
        have hc : lookupJob c6jobs (("b").data)
            = some ⟨none, none, some (Sum.inl (("a").data)), none, none, none⟩ := by decide
        rw [hc] at hl'
        exact (Option.some.inj hl').symm
      subst hjd
      have hx : x = ("a").data := by
        have hneeds : jobNeeds ⟨none, none, some (Sum.inl (("a").data)), none, none, none⟩
            = [("a").data] := by decide
        rw [hneeds] at hmem
        simpa using hmem
      subst hx
      decide
    · by_cases hya : y = ("a").data
      · subst hya
        have hjd : jd = ⟨none, none, none, none, none, none⟩ := by
          have hc : lookupJob c6jobs (("a").data)
              = some ⟨none, none, none, none, none, none⟩ := by decide
          rw [hc] at hl'
          exact (Option.some.inj hl').symm
        subst hjd
        have hneeds : jobNeeds (⟨none, none, none, none, none, none⟩ : JobDefinition)
            = [] := by decide
        rw [hneeds] at hmem
        simp at hmem
      · exfalso
        have hnone : lookupJob c6jobs y = none := by
          simp [lookupJob, c6jobs, List.find?_cons,
            show ((("a").data : List Char) = y) = False from
              eq_false (fun h => hya h.symm),
            show ((("b").data : List Char) = y) = False from
              eq_false (fun h => hyb h.symm)]
        rw [hnone] at hl'
        cases hl'
  have hacyc := acyclic_of_rank c6jobs (fun s => if s = ("b").data then 1 else 0) hstep
  have h := (claim6_topsort_respects_needs c6jobs hacyc).2 (("a").data) (("b").data)
    ⟨⟨none, none, some (Sum.inl (("a").data)), none, none, none⟩, by decide, by decide, by decide⟩
  exact h

/-- Witness for C10, at a two-job mapping whose `needs` relation is cyclic
(`a` needs `b`, `b` needs `a`): both names still appear exactly once. -/
theorem claim10_topsort_permutation_witness :
    (topologicalSort
      [((("a").data), ⟨none, none, some (Sum.inl (("b").data)), none, none, none⟩),
       ((("b").data), ⟨none, none, some (Sum.inl (("a").data)), none, none, none⟩)]).Perm
      [("a").data, ("b").data] := by
  have h := (claim10_topsort_permutation
    [((("a").data), ⟨none, none, some (Sum.inl (("b").data)), none, none, none⟩),
     ((("b").data), ⟨none, none, some (Sum.inl (("a").data)), none, none, none⟩)]
    (by decide)).1
  simpa using h

-- ---------------------------------------------------------------------------
-- Claim C9: canonical re-print of a parsed guard AST
-- ---------------------------------------------------------------------------

mutual

/-- Canonical re-serialization of a `ConditionAST` as described by the
claim: children joined by the node's operator, with parentheses re-added
around composite children. -/
def reprintAST : ConditionAST → List Char
  | .atom v => v
  | .and cs => joinSep ((" && ").data) (reprintChildList cs)
  | .or cs => joinSep ((" || ").data) (reprintChildList cs)

def reprintChildList : List ConditionAST → List (List Char)
  | [] => []
  | c :: cs => reprintChild c :: reprintChildList cs

/-- A child in a join: atoms bare, composite children parenthesized. -/
def reprintChild : ConditionAST → List Char
  | .atom v => v
  | .and cs => '(' :: (joinSep ((" && ").data) (reprintChildList cs) ++ [')'])
  | .or cs => '(' :: (joinSep ((" || ").data) (reprintChildList cs) ++ [')'])

end

theorem reprintChild_and (cs : List ConditionAST) :
    reprintChild (ConditionAST.and cs) = '(' :: (reprintAST (ConditionAST.and cs) ++ [')']) := rfl

theorem reprintChild_or (cs : List ConditionAST) :
    reprintChild (ConditionAST.or cs) = '(' :: (reprintAST (ConditionAST.or cs) ++ [')']) := rfl

theorem reprintChildList_eq_map (cs : List ConditionAST) :
    reprintChildList cs = cs.map reprintChild := by
  induction cs with
  | nil => rfl
  | cons c cs ih => simp [reprintChildList, ih]

/-- Scanner: from (non-negative) depth `d`, the text has balanced
parentheses that never close below the start depth, ends back at the start
depth, and contains no doubled occurrence of the operator `o` at depth 0. -/
def opSafeAux (o : Char) : Nat → List Char → Bool
  | d, [] => decide (d = 0)
  | d, c :: r =>
    if c = '(' then opSafeAux o (d + 1) r
    else if c = ')' then decide (d ≠ 0) && opSafeAux o (d - 1) r
    else if decide (d = 0) && decide (c = o) && decide (r.head? = some o) then false
    else opSafeAux o d r

/-- Paren-only version of `opSafeAux` (ignores operators). -/
def parenOkAux : Nat → List Char → Bool
  | d, [] => decide (d = 0)
  | d, c :: r =>
    if c = '(' then parenOkAux (d + 1) r
    else if c = ')' then decide (d ≠ 0) && parenOkAux (d - 1) r
    else parenOkAux d r

/-- The safety condition of the amended C9: an atom's text is
paren-balanced, never dips below its starting depth, and has no depth-0
occurrence of `&&` or `||`. -/
def atomSafe (v : List Char) : Bool :=
  opSafeAux '&' 0 v && opSafeAux '|' 0 v

mutual

/-- All atom texts in the AST are `atomSafe`. -/
def allAtomsSafe : ConditionAST → Bool
  | .atom v => atomSafe v
  | .and cs => allAtomsSafeList cs
  | .or cs => allAtomsSafeList cs

def allAtomsSafeList : List ConditionAST → Bool
  | [] => true
  | c :: cs => allAtomsSafe c && allAtomsSafeList cs

end

theorem allAtomsSafeList_mem {cs : List ConditionAST} {c : ConditionAST}
    (h : allAtomsSafeList cs = true) (hc : c ∈ cs) : allAtomsSafe c = true := by
  induction cs with
  | nil => simp at hc
  | cons x xs ih =>
    simp only [allAtomsSafeList, Bool.and_eq_true] at h
    rcases List.mem_cons.1 hc with rfl | hc'
    · exact h.1
    · exact ih h.2 hc'

/-- Structural invariant of parser output: atom payloads are trimmed and
fixed by `stripOuterParens`; composite nodes have at least two children,
and their atom children are non-empty. -/
inductive ParseInv : ConditionAST → Prop where
  | atom : ∀ v, trimL v = v → stripOuterParens v = v → ParseInv (.atom v)
  | and : ∀ cs, 2 ≤ cs.length → (∀ c ∈ cs, ParseInv c) →
      (∀ v, ConditionAST.atom v ∈ cs → v ≠ []) → ParseInv (.and cs)
  | or : ∀ cs, 2 ≤ cs.length → (∀ c ∈ cs, ParseInv c) →
      (∀ v, ConditionAST.atom v ∈ cs → v ≠ []) → ParseInv (.or cs)

-- ---------------------------------------------------------------------------
-- Trim infrastructure
-- ---------------------------------------------------------------------------

theorem dw_head {l : List Char} {c : Char}
    (h : (l.dropWhile isJsSpace).head? = some c) : isJsSpace c = false := by
  induction l with
  | nil => simp at h
  | cons a r ih =>
    by_cases ha : isJsSpace a
    · rw [List.dropWhile_cons_of_pos ha] at h
      exact ih h
    · rw [List.dropWhile_cons_of_neg ha] at h
      simp only [List.head?_cons, Option.some.injEq] at h
      subst h
      simpa using ha

theorem dw_eq_self {l : List Char}
    (h : ∀ c, l.head? = some c → isJsSpace c = false) :
    l.dropWhile isJsSpace = l := by
  cases l with
  | nil => rfl
  | cons a r =>
    have := h a (by simp)
    rw [List.dropWhile_cons_of_neg (by simp [this])]

theorem getLast?_append_right {α : Type} (l1 l2 : List α) (h : l2 ≠ []) :
    (l1 ++ l2).getLast? = l2.getLast? := by
  induction l1 with
  | nil => rfl
  | cons a r ih =>
    rw [List.cons_append, List.getLast?_cons]
    rw [ih]
    cases l2 with
    | nil => exact absurd rfl h
    | cons b t => simp [List.getLast?_cons]

theorem trim_head_not {l : List Char} {c : Char}
    (h : (trimL l).head? = some c) : isJsSpace c = false := by
  unfold trimL at h
  rw [List.head?_reverse] at h
  set y := (l.dropWhile isJsSpace).reverse.dropWhile isJsSpace with hy
  have hsuf : y <:+ (l.dropWhile isJsSpace).reverse := List.dropWhile_suffix _
  obtain ⟨t, ht⟩ := hsuf
  have hyne : y ≠ [] := by
    intro hnil
    rw [hnil] at h
    simp at h
  have h2 : ((l.dropWhile isJsSpace).reverse).getLast? = some c := by
    rw [← ht, getLast?_append_right t y hyne]
    exact h
  rw [List.getLast?_reverse] at h2
  exact dw_head h2

theorem trim_last_not {l : List Char} {c : Char}
    (h : (trimL l).getLast? = some c) : isJsSpace c = false := by
  unfold trimL at h
  rw [List.getLast?_reverse] at h
  exact dw_head h

theorem trim_eq_self {l : List Char}
    (h1 : ∀ c, l.head? = some c → isJsSpace c = false)
    (h2 : ∀ c, l.getLast? = some c → isJsSpace c = false) :
    trimL l = l := by
  unfold trimL
  rw [dw_eq_self (fun c hc => h1 c hc)]
  rw [dw_eq_self (fun c hc => h2 c (by rwa [List.head?_reverse] at hc))]
  exact List.reverse_reverse l

theorem trimL_idem (l : List Char) : trimL (trimL l) = trimL l :=
  trim_eq_self (fun _ hc => trim_head_not hc) (fun _ hc => trim_last_not hc)

theorem trim_cons_space (l : List Char) : trimL (' ' :: l) = trimL l := by
  unfold trimL
  rw [List.dropWhile_cons_of_pos (by decide)]

theorem trim_append_space (l : List Char) : trimL (l ++ [' ']) = trimL l := by
  unfold trimL
  rw [List.dropWhile_append]
  by_cases he : (l.dropWhile isJsSpace).isEmpty
  · rw [if_pos he]
    rw [List.isEmpty_iff] at he
    rw [he]
    rfl
  · rw [if_neg he]
    rw [List.reverse_append, List.reverse_singleton, List.singleton_append]
    rw [List.dropWhile_cons_of_pos (by decide)]

-- ---------------------------------------------------------------------------
-- Scanner composition lemmas
-- ---------------------------------------------------------------------------

theorem opSafe_parenOk (o : Char) :
    ∀ (v : List Char) (d : Nat), opSafeAux o d v = true → parenOkAux d v = true := by
  intro v
  induction v with
  | nil => intro d h; exact h
  | cons c r ih =>
    intro d h
    rw [opSafeAux] at h
    rw [parenOkAux]
    by_cases h1 : c = '('
    · rw [if_pos h1] at h ⊢
      exact ih _ h
    · rw [if_neg h1] at h ⊢
      by_cases h2 : c = ')'
      · rw [if_pos h2] at h ⊢
        rw [Bool.and_eq_true] at h ⊢
        exact ⟨h.1, ih _ h.2⟩
      · rw [if_neg h2] at h ⊢
        by_cases h3 : (decide (d = 0) && decide (c = o) && decide (r.head? = some o)) = true
        · rw [if_pos h3] at h
          exact absurd h (by simp)
        · rw [if_neg h3] at h
          exact ih _ h

theorem parenok_shift_append :
    ∀ (p : List Char) (d k : Nat) (q : List Char),
      parenOkAux d p = true → parenOkAux k q = true →
      parenOkAux (d + k) (p ++ q) = true := by
  intro p
  induction p with
  | nil =>
    intro d k q hp hq
    rw [parenOkAux] at hp
    have : d = 0 := by simpa using hp
    subst this
    simpa using hq
  | cons c r ih =>
    intro d k q hp hq
    rw [parenOkAux] at hp
    rw [List.cons_append, parenOkAux]
    by_cases h1 : c = '('
    · rw [if_pos h1] at hp ⊢
      have := ih (d + 1) k q hp hq
      rwa [show d + 1 + k = d + k + 1 by omega] at this
    · rw [if_neg h1] at hp ⊢
      by_cases h2 : c = ')'
      · rw [if_pos h2] at hp ⊢
        rw [Bool.and_eq_true] at hp
        obtain ⟨hd, hr⟩ := hp
        have hd' : d ≠ 0 := by simpa using hd
        rw [Bool.and_eq_true]
        refine ⟨by simp; omega, ?_⟩
        have := ih (d - 1) k q hr hq
        rwa [show d - 1 + k = d + k - 1 by omega] at this
      · rw [if_neg h2] at hp ⊢
        exact ih d k q hp hq

theorem opsafe_shift_append (o : Char) :
    ∀ (p : List Char) (d k : Nat) (q : List Char),
      opSafeAux o d p = true → opSafeAux o k q = true →
      (1 ≤ k ∨ p.getLast? ≠ some o ∨ q.head? ≠ some o) →
      opSafeAux o (d + k) (p ++ q) = true := by
  intro p
  induction p with
  | nil =>
    intro d k q hp hq _
    rw [opSafeAux] at hp
    have : d = 0 := by simpa using hp
    subst this
    simpa using hq
  | cons c r ih =>
    intro d k q hp hq hb
    rw [opSafeAux] at hp
    rw [List.cons_append, opSafeAux]
    have hb' : 1 ≤ k ∨ r.getLast? ≠ some o ∨ q.head? ≠ some o := by
      rcases hb with h | h | h
      · exact Or.inl h
      · cases r with
        | nil => exact Or.inr (Or.inl (by simp))
        | cons b t =>
          refine Or.inr (Or.inl ?_)
          rw [List.getLast?_cons_cons] at h
          exact h
      · exact Or.inr (Or.inr h)
    by_cases h1 : c = '('
    · rw [if_pos h1] at hp ⊢
      have := ih (d + 1) k q hp hq hb'
      rwa [show d + 1 + k = d + k + 1 by omega] at this
    · rw [if_neg h1] at hp ⊢
      by_cases h2 : c = ')'
      · rw [if_pos h2] at hp ⊢
        rw [Bool.and_eq_true] at hp
        obtain ⟨hd, hr⟩ := hp
        have hd' : d ≠ 0 := by simpa using hd
        rw [Bool.and_eq_true]
        refine ⟨by simp; omega, ?_⟩
        have := ih (d - 1) k q hr hq hb'
        rwa [show d - 1 + k = d + k - 1 by omega] at this
      · rw [if_neg h2] at hp ⊢
        by_cases h3 : (decide (d = 0) && decide (c = o) && decide (r.head? = some o)) = true
        · rw [if_pos h3] at hp
          exact absurd hp (by simp)
        · rw [if_neg h3] at hp
          by_cases h4 : (decide (d + k = 0) && decide (c = o) &&
              decide ((r ++ q).head? = some o)) = true
          · exfalso
            simp only [Bool.and_eq_true, decide_eq_true_eq] at h4
            obtain ⟨⟨hdk, hco⟩, hhead⟩ := h4
            have hd0 : d = 0 := by omega
            have hk0 : k = 0 := by omega
            cases r with
            | nil =>
              rcases hb with hkk | hlast | hqh
              · omega
              · exact hlast (by simp [hco])
              · exact hqh (by simpa using hhead)
            | cons b t =>
              apply h3
              have hb2 : b = o := by simpa using hhead
              simp [hd0, hco, hb2]
          · rw [if_neg h4]
            exact ih d k q hp hq hb'

theorem pass_paren_opsafe (o : Char) :
    ∀ (p : List Char) (d k : Nat) (q : List Char),
      parenOkAux d p = true → 1 ≤ k → opSafeAux o k q = true →
      opSafeAux o (d + k) (p ++ q) = true := by
  intro p
  induction p with
  | nil =>
    intro d k q hp _ hq
    rw [parenOkAux] at hp
    have : d = 0 := by simpa using hp
    subst this
    simpa using hq
  | cons c r ih =>
    intro d k q hp hk hq
    rw [parenOkAux] at hp
    rw [List.cons_append, opSafeAux]
    by_cases h1 : c = '('
    · rw [if_pos h1] at hp ⊢
      have := ih (d + 1) k q hp hk hq
      rwa [show d + 1 + k = d + k + 1 by omega] at this
    · rw [if_neg h1] at hp ⊢
      by_cases h2 : c = ')'
      · rw [if_pos h2] at hp ⊢
        rw [Bool.and_eq_true] at hp
        obtain ⟨hd, hr⟩ := hp
        have hd' : d ≠ 0 := by simpa using hd
        rw [Bool.and_eq_true]
        refine ⟨by simp; omega, ?_⟩
        have := ih (d - 1) k q hr hk hq
        rwa [show d - 1 + k = d + k - 1 by omega] at this
      · rw [if_neg h2] at hp ⊢
        have h4 : (decide (d + k = 0) && decide (c = o) &&
            decide ((r ++ q).head? = some o)) = false := by
          have : ¬ (d + k = 0) := by omega
          simp [this]
        rw [h4, if_neg (by simp)]
        exact ih d k q hp hk hq

-- ---------------------------------------------------------------------------
-- Pass-through of safe text under splitTopLevelAux and findMatchingParenAux
-- ---------------------------------------------------------------------------

theorem passSplit (o : Char) :
    ∀ (p : List Char) (d : Nat) (acc q : List Char),
      opSafeAux o d p = true → q.head? ≠ some o →
      splitTopLevelAux o (p ++ q) (d : Int) acc =
        splitTopLevelAux o q 0 (p.reverse ++ acc) := by
  intro p
  induction p with
  | nil =>
    intro d acc q hp _
    rw [opSafeAux] at hp
    have : d = 0 := by simpa using hp
    subst this
    simp
  | cons c r ih =>
    intro d acc q hp hq
    rw [opSafeAux] at hp
    rw [List.cons_append]
    cases hrq : r ++ q with
    | nil =>
      obtain ⟨hr, hqn⟩ := List.append_eq_nil.1 hrq
      subst hr
      subst hqn
      simp [splitTopLevelAux]
    | cons x xs =>
      rw [splitTopLevelAux]
      by_cases h1 : c = '('
      · rw [if_pos h1]
        rw [if_pos h1] at hp
        rw [← hrq]
        have hcast : (d : Int) + 1 = ((d + 1 : Nat) : Int) := by omega
        rw [hcast, ih (d + 1) (c :: acc) q hp hq]
        simp
      · rw [if_neg h1]
        rw [if_neg h1] at hp
        by_cases h2 : c = ')'
        · rw [if_pos h2]
          rw [if_pos h2] at hp
          rw [Bool.and_eq_true] at hp
          obtain ⟨hd, hr⟩ := hp
          have hd' : d ≠ 0 := by simpa using hd
          rw [← hrq]
          have hcast : (d : Int) - 1 = ((d - 1 : Nat) : Int) := by omega
          rw [hcast, ih (d - 1) (c :: acc) q hr hq]
          simp
        · rw [if_neg h2]
          rw [if_neg h2] at hp
          by_cases h3 : (decide (d = 0) && decide (c = o) && decide (r.head? = some o)) = true
          · rw [if_pos h3] at hp
            exact absurd hp (by simp)
          · rw [if_neg h3] at hp
            have hsp : ¬ ((((d : Int) = 0 : Bool) && (c = o : Bool) && (x = o : Bool)) = true) := by
              intro hcc
              simp only [Bool.and_eq_true, decide_eq_true_eq] at hcc
              obtain ⟨⟨hd0, hco⟩, hxo⟩ := hcc
              have hd0' : d = 0 := by omega
              cases r with
              | nil =>
                apply hq
                simp only [List.nil_append] at hrq
                rw [hrq]
                simp [hxo]
              | cons b t =>
                apply h3
                simp only [List.cons_append, List.cons.injEq] at hrq
                have hb : b = o := hrq.1 ▸ hxo
                simp [hd0', hco, hb]
            rw [if_neg hsp]
            rw [← hrq]
            rw [ih d (c :: acc) q hp hq]
            simp

theorem lastseg (o : Char) (p : List Char) (d : Nat) (acc : List Char)
    (hp : opSafeAux o d p = true) :
    splitTopLevelAux o p (d : Int) acc = [acc.reverse ++ p] := by
  have := passSplit o p d acc [] hp (by simp)
  rw [List.append_nil] at this
  rw [this]
  simp [splitTopLevelAux]

theorem FMPpass :
    ∀ (X : List Char) (dN i : Nat) (k : Int) (q : List Char),
      parenOkAux dN X = true → 1 ≤ k →
      findMatchingParenAux (X ++ q) i ((dN : Int) + k) =
        findMatchingParenAux q (i + X.length) k := by
  intro X
  induction X with
  | nil =>
    intro dN i k q hp _
    rw [parenOkAux] at hp
    have : dN = 0 := by simpa using hp
    subst this
    simp
  | cons c r ih =>
    intro dN i k q hp hk
    rw [parenOkAux] at hp
    rw [List.cons_append, findMatchingParenAux]
    by_cases h1 : c = '('
    · rw [if_pos h1]
      rw [if_pos h1] at hp
      have := ih (dN + 1) (i + 1) k q hp hk
      rw [show ((dN + 1 : Nat) : Int) + k = (dN : Int) + k + 1 by omega] at this
      rw [this, List.length_cons]
      ring_nf
    · rw [if_neg h1]
      rw [if_neg h1] at hp
      by_cases h2 : c = ')'
      · rw [if_pos h2]
        rw [if_pos h2] at hp
        rw [Bool.and_eq_true] at hp
        obtain ⟨hd, hr⟩ := hp
        have hd' : dN ≠ 0 := by simpa using hd
        rw [if_neg (by omega)]
        have := ih (dN - 1) (i + 1) k q hr hk
        rw [show ((dN - 1 : Nat) : Int) + k = (dN : Int) + k - 1 by omega] at this
        rw [this, List.length_cons]
        ring_nf
      · rw [if_neg h2]
        rw [if_neg h2] at hp
        have := ih dN (i + 1) k q hp hk
        rw [this, List.length_cons]
        ring_nf

theorem FMPfind :
    ∀ (X : List Char) (dN i : Nat) (q : List Char),
      parenOkAux (dN + 1) X = true →
      ∃ j, j < i + X.length ∧
        findMatchingParenAux (X ++ q) i ((dN : Int) + 1) = some j := by
  intro X
  induction X with
  | nil =>
    intro dN i q hp
    rw [parenOkAux] at hp
    simp at hp
  | cons c r ih =>
    intro dN i q hp
    rw [parenOkAux] at hp
    rw [List.cons_append, findMatchingParenAux]
    by_cases h1 : c = '('
    · rw [if_pos h1]
      rw [if_pos h1] at hp
      obtain ⟨j, hj, he⟩ := ih (dN + 1) (i + 1) q hp
      refine ⟨j, by simp; omega, ?_⟩
      rw [show ((dN : Int) + 1) + 1 = ((dN + 1 : Nat) : Int) + 1 by omega]
      exact he
    · rw [if_neg h1]
      rw [if_neg h1] at hp
      by_cases h2 : c = ')'
      · rw [if_pos h2]
        rw [if_pos h2] at hp
        rw [Bool.and_eq_true] at hp
        obtain ⟨_, hr⟩ := hp
        cases dN with
        | zero =>
          rw [if_pos (by omega)]
          exact ⟨i, by simp, rfl⟩
        | succ m =>
          rw [if_neg (by omega)]
          obtain ⟨j, hj, he⟩ := ih m (i + 1) q hr
          refine ⟨j, by simp; omega, ?_⟩
          rw [show ((m + 1 : Nat) : Int) + 1 - 1 = (m : Int) + 1 by omega]
          exact he
      · rw [if_neg h2]
        rw [if_neg h2] at hp
        obtain ⟨j, hj, he⟩ := ih dN (i + 1) q hp
        exact ⟨j, by simp; omega, he⟩

theorem FMPwrap (X : List Char) (hX : parenOkAux 0 X = true) :
    findMatchingParen ('(' :: (X ++ [')'])) 0 = some (X.length + 1) := by
  unfold findMatchingParen
  rw [List.drop_zero, findMatchingParenAux, if_pos rfl]
  have := FMPpass X 0 1 1 [')'] hX (by omega)
  rw [show ((0 : Nat) : Int) + 1 = (0 : Int) + 1 by omega] at this
  rw [this]
  rw [findMatchingParenAux]
  rw [if_neg (by decide), if_pos (by decide), if_pos (by omega)]
  simp [Nat.add_comm]

-- ---------------------------------------------------------------------------
-- stripOuterParens: fixpoints and fuel congruence
-- ---------------------------------------------------------------------------

theorem trim_length_le (l : List Char) : (trimL l).length ≤ l.length := by
  unfold trimL
  have h1 : ((l.dropWhile isJsSpace).reverse.dropWhile isJsSpace).length ≤
      (l.dropWhile isJsSpace).reverse.length := (List.dropWhile_suffix _).length_le
  have h2 : (l.dropWhile isJsSpace).length ≤ l.length := (List.dropWhile_suffix _).length_le
  simp only [List.length_reverse] at h1 ⊢
  omega

theorem strip_nil : ∀ g, stripOuterParensF g [] = [] := by
  intro g
  cases g with
  | zero => rfl
  | succ g => rfl

theorem strip_inert (f : Nat) (X : List Char) (ht : trimL X = X)
    (h : X.head? = some '(' → ∀ j, findMatchingParen X 0 = some j → j ≠ X.length - 1) :
    stripOuterParensF f X = X := by
  cases f with
  | zero => exact ht
  | succ f =>
    simp only [stripOuterParensF, ht]
    split
    · next tail =>
      cases hfm : findMatchingParen ('(' :: tail) 0 with
      | none => rfl
      | some j =>
        have hne := h (by simp) j hfm
        simp only [List.length_cons, Nat.add_sub_cancel] at hne
        simp [hne]
    · rfl

theorem strip_paren_stuck (f : Nat) (X : List Char) (rest : List Char)
    (ht : trimL X = X) (heq : X = '(' :: rest)
    (hfm : findMatchingParen X 0 = some (X.length - 1))
    (hinner : trimL ((X.drop 1).dropLast) = []) :
    stripOuterParensF f X = X := by
  subst heq
  cases f with
  | zero => exact ht
  | succ f =>
    simp only [stripOuterParensF, ht]
    rw [hfm]
    simp only [List.drop_one, List.tail_cons] at hinner ⊢
    simp [hinner]

theorem strip_trimmed (f : Nat) : ∀ e, trimL (stripOuterParensF f e) = stripOuterParensF f e := by
  induction f with
  | zero => intro e; exact trimL_idem e
  | succ f ih =>
    intro e
    simp only [stripOuterParensF]
    split
    · split
      · split
        · split
          · exact trimL_idem e
          · exact ih _
        · exact trimL_idem e
      · exact trimL_idem e
    · exact trimL_idem e

theorem strip_ne_nil (f : Nat) : ∀ e, trimL e = e → e ≠ [] → stripOuterParensF f e ≠ [] := by
  induction f with
  | zero =>
    intro e ht hne
    have : stripOuterParensF 0 e = trimL e := rfl
    rw [this, ht]
    exact hne
  | succ f ih =>
    intro e ht hne
    simp only [stripOuterParensF, ht]
    split
    · split
      · split
        · split
          · exact hne
          · next hinner => exact ih _ (trimL_idem _) hinner
        · exact hne
      · exact hne
    · exact hne

theorem strip_fix : ∀ (f : Nat) (e : List Char), e.length ≤ f →
    ∀ g, stripOuterParensF g (stripOuterParensF f e) = stripOuterParensF f e := by
  intro f
  induction f with
  | zero =>
    intro e he g
    have he0 : e = [] := List.length_eq_zero.1 (Nat.le_zero.1 he)
    subst he0
    rw [strip_nil, strip_nil]
  | succ f ih =>
    intro e he g
    have hl1 : (trimL e).length ≤ e.length := trim_length_le e
    simp only [stripOuterParensF]
    split
    · next rest heq =>
      split
      · next ci hfm =>
        split
        · next hci =>
          split
          · next hinner =>
            exact strip_paren_stuck g (trimL e) rest (trimL_idem e) heq (hci ▸ hfm) hinner
          · next hinner =>
            apply ih
            have hl2 : (trimL (((trimL e).drop 1).dropLast)).length ≤
                (((trimL e).drop 1).dropLast).length := trim_length_le _
            have hl3 : ((((trimL e)).drop 1).dropLast).length = (trimL e).length - 1 - 1 := by
              rw [List.length_dropLast, List.length_drop]
            have hl4 : 1 ≤ (trimL e).length := by rw [heq]; simp
            omega
        · next hci =>
          refine strip_inert g (trimL e) (trimL_idem e) (fun _ j hj => ?_)
          rw [hfm] at hj
          have : ci = j := by simpa using hj
          rw [← this]
          exact hci
      · next hfm =>
        refine strip_inert g (trimL e) (trimL_idem e) (fun _ j hj => ?_)
        rw [hfm] at hj
        simp at hj
    · next hno =>
      refine strip_inert g (trimL e) (trimL_idem e) (fun hhd j _ => ?_)
      exfalso
      cases hte : trimL e with
      | nil =>
        rw [hte] at hhd
        simp at hhd
      | cons c r =>
        rw [hte] at hhd
        simp only [List.head?_cons, Option.some.injEq] at hhd
        exact hno r (by rw [hte, hhd])

theorem strip_congr : ∀ (f : Nat) (e : List Char) (g : Nat), e.length ≤ f → e.length ≤ g →
    stripOuterParensF f e = stripOuterParensF g e := by
  intro f
  induction f with
  | zero =>
    intro e g he _
    have he0 : e = [] := List.length_eq_zero.1 (Nat.le_zero.1 he)
    subst he0
    rw [strip_nil, strip_nil]
  | succ f ih =>
    intro e g he hg
    cases g with
    | zero =>
      have he0 : e = [] := List.length_eq_zero.1 (Nat.le_zero.1 hg)
      subst he0
      rw [strip_nil, strip_nil]
    | succ g' =>
      have hl1 : (trimL e).length ≤ e.length := trim_length_le e
      simp only [stripOuterParensF]
      split
      · next rest heq =>
        split
        · next ci hfm =>
          split
          · next hci =>
            split
            · next hinner => rfl
            · next hinner =>
              have hl2 : (trimL (((trimL e).drop 1).dropLast)).length ≤
                  (((trimL e).drop 1).dropLast).length := trim_length_le _
              have hl3 : ((((trimL e)).drop 1).dropLast).length = (trimL e).length - 1 - 1 := by
                rw [List.length_dropLast, List.length_drop]
              have hl4 : 1 ≤ (trimL e).length := by rw [heq]; simp
              exact ih _ g' (by omega) (by omega)
          · next hci => rfl
        · next hfm => rfl
      · next hno => rfl

theorem stripOuterParens_trimmed (e : List Char) :
    trimL (stripOuterParens e) = stripOuterParens e := strip_trimmed _ e

theorem stripOuterParens_idem (e : List Char) :
    stripOuterParens (stripOuterParens e) = stripOuterParens e := by
  unfold stripOuterParens
  exact strip_fix e.length e le_rfl _

-- ---------------------------------------------------------------------------
-- splitTopLevel: part-length bounds and part shape
-- ---------------------------------------------------------------------------

theorem auxlen (o : Char) : ∀ (n : Nat) (e : List Char), e.length ≤ n →
    ∀ (depth : Int) (acc part : List Char),
      part ∈ splitTopLevelAux o e depth acc → part.length ≤ acc.length + e.length := by
  intro n
  induction n with
  | zero =>
    intro e he depth acc part hp
    have he0 : e = [] := List.length_eq_zero.1 (Nat.le_zero.1 he)
    subst he0
    rw [splitTopLevelAux] at hp
    simp at hp
    subst hp
    simp
  | succ n ih =>
    intro e he depth acc part hp
    cases e with
    | nil =>
      rw [splitTopLevelAux] at hp
      simp at hp
      subst hp
      simp
    | cons c r =>
      cases r with
      | nil =>
        rw [splitTopLevelAux] at hp
        simp at hp
        subst hp
        simp
      | cons c2 rest =>
        rw [splitTopLevelAux] at hp
        have hlen : (c2 :: rest).length ≤ n := by
          simp at he ⊢
          omega
        by_cases h1 : c = '('
        · rw [if_pos h1] at hp
          have := ih (c2 :: rest) hlen (depth + 1) (c :: acc) part hp
          simp at this ⊢
          omega
        · rw [if_neg h1] at hp
          by_cases h2 : c = ')'
          · rw [if_pos h2] at hp
            have := ih (c2 :: rest) hlen (depth - 1) (c :: acc) part hp
            simp at this ⊢
            omega
          · rw [if_neg h2] at hp
            by_cases h3 : ((depth = 0 : Bool) && (c = o : Bool) && (c2 = o : Bool)) = true
            · rw [if_pos h3] at hp
              rcases List.mem_cons.1 hp with hpe | hpm
              · subst hpe
                simp
              · have hrl : rest.length ≤ n := by
                  simp at he
                  omega
                have := ih rest hrl depth [] part hpm
                simp at this ⊢
                omega
            · rw [if_neg h3] at hp
              have := ih (c2 :: rest) hlen depth (c :: acc) part hp
              simp at this ⊢
              omega

theorem auxbound (o : Char) : ∀ (n : Nat) (e : List Char), e.length ≤ n →
    ∀ (depth : Int) (acc part : List Char),
      2 ≤ (splitTopLevelAux o e depth acc).length →
      part ∈ splitTopLevelAux o e depth acc → part.length + 2 ≤ acc.length + e.length := by
  intro n
  induction n with
  | zero =>
    intro e he depth acc part hl hp
    have he0 : e = [] := List.length_eq_zero.1 (Nat.le_zero.1 he)
    subst he0
    rw [splitTopLevelAux] at hl
    simp at hl
  | succ n ih =>
    intro e he depth acc part hl hp
    cases e with
    | nil =>
      rw [splitTopLevelAux] at hl
      simp at hl
    | cons c r =>
      cases r with
      | nil =>
        rw [splitTopLevelAux] at hl
        simp at hl
      | cons c2 rest =>
        rw [splitTopLevelAux] at hl hp
        have hlen : (c2 :: rest).length ≤ n := by
          simp at he ⊢
          omega
        by_cases h1 : c = '('
        · rw [if_pos h1] at hl hp
          have := ih (c2 :: rest) hlen (depth + 1) (c :: acc) part hl hp
          simp at this ⊢
          omega
        · rw [if_neg h1] at hl hp
          by_cases h2 : c = ')'
          · rw [if_pos h2] at hl hp
            have := ih (c2 :: rest) hlen (depth - 1) (c :: acc) part hl hp
            simp at this ⊢
            omega
          · rw [if_neg h2] at hl hp
            by_cases h3 : ((depth = 0 : Bool) && (c = o : Bool) && (c2 = o : Bool)) = true
            · rw [if_pos h3] at hp
              rcases List.mem_cons.1 hp with hpe | hpm
              · subst hpe
                simp
              · have hrl : rest.length ≤ n := by
                  simp at he
                  omega
                have := auxlen o rest.length rest le_rfl depth [] part hpm
                simp at this ⊢
                omega
            · rw [if_neg h3] at hl hp
              have := ih (c2 :: rest) hlen depth (c :: acc) part hl hp
              simp at this ⊢
              omega

theorem split_part_short (e : List Char) (o : Char) (p : List Char)
    (hlen : 2 ≤ (splitTopLevel e o).length) (hp : p ∈ splitTopLevel e o) :
    p.length + 2 ≤ e.length := by
  unfold splitTopLevel at hlen hp
  have hp2 := List.mem_of_mem_filter hp
  obtain ⟨rp, hrp, hpeq⟩ := List.mem_map.1 hp2
  have hrawlen : 2 ≤ (splitTopLevelAux o e 0 []).length := by
    calc 2 ≤ (((splitTopLevelAux o e 0 []).map trimL).filter (fun p => !p.isEmpty)).length :=
          hlen
      _ ≤ ((splitTopLevelAux o e 0 []).map trimL).length := List.length_filter_le _ _
      _ = (splitTopLevelAux o e 0 []).length := List.length_map _ _
  have hb := auxbound o e.length e le_rfl 0 [] rp hrawlen hrp
  have ht : p.length ≤ rp.length := by
    rw [← hpeq]
    exact trim_length_le rp
  simp at hb
  omega

theorem split_part_shape (e : List Char) (o : Char) (p : List Char)
    (hp : p ∈ splitTopLevel e o) : trimL p = p ∧ p ≠ [] := by
  unfold splitTopLevel at hp
  constructor
  · have hp2 := List.mem_of_mem_filter hp
    obtain ⟨rp, _, hpeq⟩ := List.mem_map.1 hp2
    rw [← hpeq]
    exact trimL_idem rp
  · have := List.of_mem_filter hp
    simpa using this

-- ---------------------------------------------------------------------------
-- joinSep: head, last, non-emptiness, trimmedness
-- ---------------------------------------------------------------------------

theorem head?_append_left {α : Type} (l1 l2 : List α) (h : l1 ≠ []) :
    (l1 ++ l2).head? = l1.head? := by
  cases l1 with
  | nil => exact absurd rfl h
  | cons a t => rfl

theorem joinSep_ne_nil (sep : List Char) :
    ∀ (parts : List (List Char)), parts ≠ [] → (∀ p ∈ parts, p ≠ []) →
      joinSep sep parts ≠ [] := by
  intro parts
  induction parts with
  | nil => intro h; exact absurd rfl h
  | cons x xs ih =>
    intro _ hall
    cases xs with
    | nil => exact hall x (by simp)
    | cons y t =>
      show x ++ sep ++ joinSep sep (y :: t) ≠ []
      have hx := hall x (by simp)
      simp [hx]

theorem joinSep_head?_eq (sep : List Char) (x : List Char) (xs : List (List Char))
    (hx : x ≠ []) : (joinSep sep (x :: xs)).head? = x.head? := by
  cases xs with
  | nil => rfl
  | cons y t =>
    show (x ++ sep ++ joinSep sep (y :: t)).head? = x.head?
    rw [List.append_assoc]
    exact head?_append_left _ _ hx

theorem joinSep_getLast?_eq (sep : List Char) :
    ∀ (xs : List (List Char)) (x : List Char), (∀ p ∈ x :: xs, p ≠ []) →
      ∃ q ∈ x :: xs, (joinSep sep (x :: xs)).getLast? = q.getLast? := by
  intro xs
  induction xs with
  | nil =>
    intro x _
    exact ⟨x, by simp, rfl⟩
  | cons y t ih =>
    intro x h
    obtain ⟨q, hq, he⟩ := ih y (fun p hp => h p (by simp at hp ⊢; tauto))
    refine ⟨q, by simp at hq ⊢; tauto, ?_⟩
    show (x ++ sep ++ joinSep sep (y :: t)).getLast? = q.getLast?
    have hjne : joinSep sep (y :: t) ≠ [] :=
      joinSep_ne_nil sep (y :: t) (by simp) (fun p hp => h p (by simp at hp ⊢; tauto))
    rw [List.append_assoc, getLast?_append_right _ _ (by simp [hjne]),
      getLast?_append_right _ _ hjne, he]

/-- Splitting (at top level, on doubled `o`) a join of parts that are
individually safe for `o` recovers exactly the parts. -/
theorem splitJoin (o : Char) (h1 : o ≠ '(') (h2 : o ≠ ')') (h3 : o ≠ ' ') :
    ∀ (parts : List (List Char)) (acc : List Char), parts ≠ [] →
      (∀ p ∈ parts, opSafeAux o 0 p = true ∧ trimL p = p ∧ p ≠ []) →
      (acc = [] ∨ acc = [' ']) →
      ((splitTopLevelAux o (joinSep (' ' :: o :: o :: [' ']) parts) 0 acc).map trimL).filter
        (fun p => !p.isEmpty) = parts := by
  intro parts
  induction parts with
  | nil => intro acc hne _ _; exact absurd rfl hne
  | cons p rest ih =>
    intro acc _ hall hacc
    have hp := hall p (by simp)
    cases rest with
    | nil =>
      have hj1 : joinSep (' ' :: o :: o :: [' ']) [p] = p := rfl
      rw [hj1]
      have hls := lastseg o p 0 acc hp.1
      rw [Nat.cast_zero] at hls
      rw [hls, List.map_cons, List.map_nil, List.filter_cons]
      have htr : trimL (acc.reverse ++ p) = p := by
        rcases hacc with rfl | rfl
        · simp [hp.2.1]
        · rw [show ([' '] : List Char).reverse ++ p = ' ' :: p from rfl, trim_cons_space,
            hp.2.1]
      rw [htr, if_pos (show (!p.isEmpty) = true by simp [hp.2.2])]
      rfl
    | cons p2 rest2 =>
      have hrest_all : ∀ q ∈ p2 :: rest2,
          opSafeAux o 0 q = true ∧ trimL q = q ∧ q ≠ [] :=
        fun q hq => hall q (List.mem_cons_of_mem p hq)
      have hjoin_ne : joinSep (' ' :: o :: o :: [' ']) (p2 :: rest2) ≠ [] :=
        joinSep_ne_nil _ _ (by simp) (fun q hq => (hrest_all q hq).2.2)
      have hj3 : joinSep (' ' :: o :: o :: [' ']) (p :: p2 :: rest2) =
          p ++ ((' ' :: o :: o :: [' ']) ++ joinSep (' ' :: o :: o :: [' ']) (p2 :: rest2)) := by
        rw [joinSep, List.append_assoc]
        simp
      rw [hj3]
      have hpass := passSplit o p 0 acc
        ((' ' :: o :: o :: [' ']) ++ joinSep (' ' :: o :: o :: [' ']) (p2 :: rest2)) hp.1
        (by simp; intro hso; exact h3 hso.symm)
      rw [Nat.cast_zero] at hpass
      rw [hpass]
      simp only [List.cons_append, List.nil_append]
      rw [splitTopLevelAux]
      have hns : ¬((((0 : Int) = 0 : Bool)) && ((' ' = o : Bool)) && ((o = o : Bool))) = true := by
        simp only [Bool.and_eq_true, decide_eq_true_eq]
        rintro ⟨⟨-, hso⟩, -⟩
        exact h3 hso.symm
      rw [if_neg (by decide), if_neg (by decide), if_neg hns]
      rw [splitTopLevelAux]
      rw [if_neg h1, if_neg h2,
        if_pos (show (((0 : Int) = 0 : Bool) && ((o = o : Bool)) && ((o = o : Bool))) = true
          by simp)]
      obtain ⟨j1, jrest, hj⟩ : ∃ j1 jrest,
          joinSep (' ' :: o :: o :: [' ']) (p2 :: rest2) = j1 :: jrest := by
        cases hjj : joinSep (' ' :: o :: o :: [' ']) (p2 :: rest2) with
        | nil => exact absurd hjj hjoin_ne
        | cons a b => exact ⟨a, b, rfl⟩
      rw [hj, splitTopLevelAux]
      have hns2 : ¬((((0 : Int) = 0 : Bool)) && ((' ' = o : Bool)) && ((j1 = o : Bool))) = true := by
        simp only [Bool.and_eq_true, decide_eq_true_eq]
        rintro ⟨⟨-, hso⟩, -⟩
        exact h3 hso.symm
      rw [if_neg (by decide), if_neg (by decide), if_neg hns2]
      rw [← hj]
      rw [List.map_cons, List.filter_cons]
      have hhead : trimL ((' ' :: (p.reverse ++ acc)).reverse) = p := by
        rcases hacc with rfl | rfl
        · have he1 : (' ' :: (p.reverse ++ ([] : List Char))).reverse = p ++ [' '] := by simp
          rw [he1, trim_append_space, hp.2.1]
        · have he2 : (' ' :: (p.reverse ++ [' '])).reverse = (' ' :: p) ++ [' '] := by simp
          rw [he2, trim_append_space, trim_cons_space, hp.2.1]
      rw [hhead, if_pos (show (!p.isEmpty) = true by simp [hp.2.2])]
      rw [ih [' '] (by simp) hrest_all (Or.inr rfl)]

theorem strip_length_le (f : Nat) : ∀ e, (stripOuterParensF f e).length ≤ e.length := by
  induction f with
  | zero => intro e; exact trim_length_le e
  | succ f ih =>
    intro e
    have h1 := trim_length_le e
    simp only [stripOuterParensF]
    split
    · next rest heq =>
      split
      · next ci hfm =>
        split
        · next hci =>
          split
          · next hinner => exact h1
          · next hinner =>
            have h2 := ih (trimL (((trimL e).drop 1).dropLast))
            have h3 := trim_length_le (((trimL e).drop 1).dropLast)
            have h4 : ((((trimL e)).drop 1).dropLast).length = (trimL e).length - 1 - 1 := by
              rw [List.length_dropLast, List.length_drop]
            omega
        · next => exact h1
      · next => exact h1
    · next => exact h1

-- ---------------------------------------------------------------------------
-- Parser: fuel congruence, atom-value characterization, output invariant
-- ---------------------------------------------------------------------------

theorem parse_atom_val (f : Nat) (e : List Char) (v : List Char)
    (h : parseConditionExprF (f + 1) e = ConditionAST.atom v) :
    v = stripOuterParens (trimL e) := by
  simp only [parseConditionExprF] at h
  split at h
  · exact absurd h (by simp)
  · split at h
    · exact absurd h (by simp)
    · injection h with hv
      rw [← hv, stripOuterParens_trimmed]

theorem parse_congr' : ∀ (f : Nat) (e : List Char), e.length < f →
    parseConditionExprF f e = parseConditionExprF (e.length + 1) e := by
  intro f
  induction f using Nat.strong_induction_on with
  | _ f ih =>
    intro e he
    cases f with
    | zero => exact absurd he (by omega)
    | succ f' =>
      have h1 : (stripOuterParensF (trimL e).length (trimL e)).length ≤ (trimL e).length :=
        strip_length_le _ _
      have h2 := trim_length_le e
      have hexpr_le : (stripOuterParens (trimL e)).length ≤ e.length := by
        unfold stripOuterParens
        omega
      simp only [parseConditionExprF]
      split
      · next hor =>
        congr 1
        apply List.map_congr_left
        intro p hp
        have hps := split_part_short _ '|' p (by omega) hp
        rw [ih f' (by omega) p (by omega), ← ih e.length (by omega) p (by omega)]
      · next hor =>
        split
        · next hand =>
          congr 1
          apply List.map_congr_left
          intro p hp
          have hps := split_part_short _ '&' p (by omega) hp
          rw [ih f' (by omega) p (by omega), ← ih e.length (by omega) p (by omega)]
        · next hand => rfl

theorem parse_congr (f g : Nat) (e : List Char) (hf : e.length < f) (hg : e.length < g) :
    parseConditionExprF f e = parseConditionExprF g e := by
  rw [parse_congr' f e hf, parse_congr' g e hg]

theorem parse_inv : ∀ (f : Nat) (e : List Char), e.length < f →
    ParseInv (parseConditionExprF f e) := by
  intro f
  induction f with
  | zero => intro e he; exact absurd he (by omega)
  | succ f ih =>
    intro e he
    have h1 : (stripOuterParensF (trimL e).length (trimL e)).length ≤ (trimL e).length :=
      strip_length_le _ _
    have h2 := trim_length_le e
    have hexpr_le : (stripOuterParens (trimL e)).length ≤ e.length := by
      unfold stripOuterParens
      omega
    simp only [parseConditionExprF]
    split
    · next hor =>
      apply ParseInv.or
      · rw [List.length_map]
        omega
      · intro c hc
        obtain ⟨p, hp, rfl⟩ := List.mem_map.1 hc
        have hps := split_part_short _ '|' p (by omega) hp
        exact ih p (by omega)
      · intro v hv
        obtain ⟨p, hp, hpe⟩ := List.mem_map.1 hv
        have hps := split_part_short _ '|' p (by omega) hp
        have hshape := split_part_shape _ '|' p hp
        cases f with
        | zero => omega
        | succ f2 =>
          have hval := parse_atom_val f2 p v hpe
          rw [hval, hshape.1]
          exact strip_ne_nil p.length p hshape.1 hshape.2
    · next hor =>
      split
      · next hand =>
        apply ParseInv.and
        · rw [List.length_map]
          omega
        · intro c hc
          obtain ⟨p, hp, rfl⟩ := List.mem_map.1 hc
          have hps := split_part_short _ '&' p (by omega) hp
          exact ih p (by omega)
        · intro v hv
          obtain ⟨p, hp, hpe⟩ := List.mem_map.1 hv
          have hps := split_part_short _ '&' p (by omega) hp
          have hshape := split_part_shape _ '&' p hp
          cases f with
          | zero => omega
          | succ f2 =>
            have hval := parse_atom_val f2 p v hpe
            rw [hval, hshape.1]
            exact strip_ne_nil p.length p hshape.1 hshape.2
      · next hand =>
        rw [stripOuterParens_trimmed]
        exact ParseInv.atom _ (stripOuterParens_trimmed _) (stripOuterParens_idem _)

theorem opSafe_joiner (oS oJ : Char) (h1 : oJ ≠ '(') (h2 : oJ ≠ ')')
    (h3 : oS ≠ ' ') (h4 : oS ≠ oJ) :
    opSafeAux oS 0 (' ' :: oJ :: oJ :: [' ']) = true := by
  simp [opSafeAux, h1, h2, Ne.symm h3, Ne.symm h4]

theorem parenOk_joiner (oJ : Char) (h1 : oJ ≠ '(') (h2 : oJ ≠ ')') :
    parenOkAux 0 (' ' :: oJ :: oJ :: [' ']) = true := by
  simp [parenOkAux, h1, h2]

theorem opSafe_join (oS oJ : Char) (h1 : oJ ≠ '(') (h2 : oJ ≠ ')')
    (h3 : oS ≠ ' ') (h4 : oS ≠ oJ) :
    ∀ (ws : List (List Char)), ws ≠ [] → (∀ w ∈ ws, opSafeAux oS 0 w = true) →
      opSafeAux oS 0 (joinSep (' ' :: oJ :: oJ :: [' ']) ws) = true := by
  intro ws
  induction ws with
  | nil => intro h; exact absurd rfl h
  | cons w rest ih =>
    intro _ hall
    cases rest with
    | nil => exact hall w (by simp)
    | cons w2 rest2 =>
      have hj3 : joinSep (' ' :: oJ :: oJ :: [' ']) (w :: w2 :: rest2) =
          w ++ ((' ' :: oJ :: oJ :: [' ']) ++ joinSep (' ' :: oJ :: oJ :: [' ']) (w2 :: rest2)) := by
        rw [joinSep, List.append_assoc]
        simp
      rw [hj3]
      have hrest := ih (by simp) (fun q hq => hall q (List.mem_cons_of_mem w hq))
      have hlastb : (' ' :: oJ :: oJ :: [' ']).getLast? ≠ some oS := by
        simp only [List.getLast?_cons_cons, List.getLast?_singleton]
        intro hso
        exact h3 (Option.some.inj hso).symm
      have hq : opSafeAux oS 0
          ((' ' :: oJ :: oJ :: [' ']) ++ joinSep (' ' :: oJ :: oJ :: [' ']) (w2 :: rest2)) = true := by
        have := opsafe_shift_append oS (' ' :: oJ :: oJ :: [' ']) 0 0 _
          (opSafe_joiner oS oJ h1 h2 h3 h4) hrest (Or.inr (Or.inl hlastb))
        simpa using this
      have hheadb : ((' ' :: oJ :: oJ :: [' ']) ++
          joinSep (' ' :: oJ :: oJ :: [' ']) (w2 :: rest2)).head? ≠ some oS := by
        simp only [List.cons_append, List.head?_cons]
        intro hso
        exact h3 (Option.some.inj hso).symm
      have := opsafe_shift_append oS w 0 0 _ (hall w (by simp)) hq
        (Or.inr (Or.inr hheadb))
      simpa using this

theorem parenOk_join (oJ : Char) (h1 : oJ ≠ '(') (h2 : oJ ≠ ')') :
    ∀ (ws : List (List Char)), ws ≠ [] → (∀ w ∈ ws, parenOkAux 0 w = true) →
      parenOkAux 0 (joinSep (' ' :: oJ :: oJ :: [' ']) ws) = true := by
  intro ws
  induction ws with
  | nil => intro h; exact absurd rfl h
  | cons w rest ih =>
    intro _ hall
    cases rest with
    | nil => exact hall w (by simp)
    | cons w2 rest2 =>
      have hj3 : joinSep (' ' :: oJ :: oJ :: [' ']) (w :: w2 :: rest2) =
          w ++ ((' ' :: oJ :: oJ :: [' ']) ++ joinSep (' ' :: oJ :: oJ :: [' ']) (w2 :: rest2)) := by
        rw [joinSep, List.append_assoc]
        simp
      rw [hj3]
      have hrest := ih (by simp) (fun q hq => hall q (List.mem_cons_of_mem w hq))
      have hq : parenOkAux 0
          ((' ' :: oJ :: oJ :: [' ']) ++ joinSep (' ' :: oJ :: oJ :: [' ']) (w2 :: rest2)) = true := by
        have := parenok_shift_append (' ' :: oJ :: oJ :: [' ']) 0 0 _
          (parenOk_joiner oJ h1 h2) hrest
        simpa using this
      have := parenok_shift_append w 0 0 _ (hall w (by simp)) hq
      simpa using this

theorem opSafe_wrap (o : Char) (X : List Char) (hX : parenOkAux 0 X = true) :
    opSafeAux o 0 ('(' :: (X ++ [')'])) = true := by
  rw [opSafeAux, if_pos rfl]
  have hq : opSafeAux o 1 [')'] = true := by simp [opSafeAux]
  have := pass_paren_opsafe o X 0 1 [')'] hX (by omega) hq
  simpa using this

theorem parenOk_wrap (X : List Char) (hX : parenOkAux 0 X = true) :
    parenOkAux 0 ('(' :: (X ++ [')'])) = true := by
  rw [parenOkAux, if_pos rfl]
  have hq : parenOkAux 1 [')'] = true := by simp [parenOkAux]
  have := parenok_shift_append X 0 1 [')'] hX hq
  simpa using this

theorem wrap_trimmed (X : List Char) :
    trimL ('(' :: (X ++ [')'])) = '(' :: (X ++ [')']) := by
  apply trim_eq_self
  · intro c hc
    simp only [List.head?_cons, Option.some.injEq] at hc
    subst hc
    decide
  · intro c hc
    have he : '(' :: (X ++ [')']) = ('(' :: X) ++ [')'] := by simp
    rw [he, getLast?_append_right _ _ (by simp)] at hc
    simp only [List.getLast?_singleton, Option.some.injEq] at hc
    subst hc
    decide

theorem joinSep_trimmed (sep : List Char) (parts : List (List Char))
    (hne : parts ≠ []) (hall : ∀ p ∈ parts, trimL p = p ∧ p ≠ []) :
    trimL (joinSep sep parts) = joinSep sep parts := by
  cases parts with
  | nil => exact absurd rfl hne
  | cons x xs =>
    apply trim_eq_self
    · intro c hc
      rw [joinSep_head?_eq sep x xs (hall x (by simp)).2] at hc
      apply trim_head_not (l := x)
      rw [(hall x (by simp)).1]
      exact hc
    · intro c hc
      obtain ⟨q, hq, he⟩ := joinSep_getLast?_eq sep xs x (fun p hp => (hall p hp).2)
      rw [he] at hc
      apply trim_last_not (l := q)
      rw [(hall q hq).1]
      exact hc

-- ---------------------------------------------------------------------------
-- Shape of canonically re-printed children
-- ---------------------------------------------------------------------------

theorem rprops : ∀ (n : Nat) (c : ConditionAST), sizeOf c ≤ n → ParseInv c →
    allAtomsSafe c = true → (∀ v, c = ConditionAST.atom v → v ≠ []) →
    trimL (reprintChild c) = reprintChild c ∧ reprintChild c ≠ [] ∧
      opSafeAux '&' 0 (reprintChild c) = true ∧ opSafeAux '|' 0 (reprintChild c) = true := by
  intro n
  induction n with
  | zero => intro c h; cases c <;> simp at h
  | succ n ih =>
    intro c hsz hpi hsafe hne
    cases c with
    | atom v =>
      have hsafe' : atomSafe v = true := hsafe
      rw [atomSafe, Bool.and_eq_true] at hsafe'
      cases hpi with
      | atom _ htrim hstrip =>
        exact ⟨htrim, hne v rfl, hsafe'.1, hsafe'.2⟩
    | and cs =>
      cases hpi with
      | and _ hlen hkids hatomne =>
        have hsafeL : allAtomsSafeList cs = true := hsafe
        have hkidprops : ∀ x ∈ cs, trimL (reprintChild x) = reprintChild x ∧
            reprintChild x ≠ [] ∧ opSafeAux '&' 0 (reprintChild x) = true ∧
            opSafeAux '|' 0 (reprintChild x) = true := by
          intro x hx
          apply ih x ?_ (hkids x hx) (allAtomsSafeList_mem hsafeL hx)
            (fun v hv => hatomne v (hv ▸ hx))
          have hlt : sizeOf x < sizeOf cs := List.sizeOf_lt_of_mem hx
          have : sizeOf cs < sizeOf (ConditionAST.and cs) := by simp
          omega
        have hsep : (" && ").data = ' ' :: '&' :: '&' :: [' '] := rfl
        have hws : reprintChildList cs = cs.map reprintChild := reprintChildList_eq_map cs
        have hwsne : cs.map reprintChild ≠ [] := by
          intro h0
          rw [List.map_eq_nil_iff] at h0
          subst h0
          simp at hlen
        have hwall_ne : ∀ w ∈ cs.map reprintChild, w ≠ [] := by
          intro w hw
          obtain ⟨x, hx, rfl⟩ := List.mem_map.1 hw
          exact (hkidprops x hx).2.1
        have hXpo : parenOkAux 0 (joinSep ((" && ").data) (reprintChildList cs)) = true := by
          rw [hsep, hws]
          apply parenOk_join '&' (by decide) (by decide) _ hwsne
          intro w hw
          obtain ⟨x, hx, rfl⟩ := List.mem_map.1 hw
          exact opSafe_parenOk '&' _ 0 (hkidprops x hx).2.2.1
        rw [show reprintChild (ConditionAST.and cs) =
          '(' :: (joinSep ((" && ").data) (reprintChildList cs) ++ [')']) from rfl]
        refine ⟨wrap_trimmed _, by simp, opSafe_wrap '&' _ hXpo, opSafe_wrap '|' _ hXpo⟩
    | or cs =>
      cases hpi with
      | or _ hlen hkids hatomne =>
        have hsafeL : allAtomsSafeList cs = true := hsafe
        have hkidprops : ∀ x ∈ cs, trimL (reprintChild x) = reprintChild x ∧
            reprintChild x ≠ [] ∧ opSafeAux '&' 0 (reprintChild x) = true ∧
            opSafeAux '|' 0 (reprintChild x) = true := by
          intro x hx
          apply ih x ?_ (hkids x hx) (allAtomsSafeList_mem hsafeL hx)
            (fun v hv => hatomne v (hv ▸ hx))
          have hlt : sizeOf x < sizeOf cs := List.sizeOf_lt_of_mem hx
          have : sizeOf cs < sizeOf (ConditionAST.or cs) := by simp
          omega
        have hsep : (" || ").data = ' ' :: '|' :: '|' :: [' '] := rfl
        have hws : reprintChildList cs = cs.map reprintChild := reprintChildList_eq_map cs
        have hwsne : cs.map reprintChild ≠ [] := by
          intro h0
          rw [List.map_eq_nil_iff] at h0
          subst h0
          simp at hlen
        have hwall_ne : ∀ w ∈ cs.map reprintChild, w ≠ [] := by
          intro w hw
          obtain ⟨x, hx, rfl⟩ := List.mem_map.1 hw
          exact (hkidprops x hx).2.1
        have hXpo : parenOkAux 0 (joinSep ((" || ").data) (reprintChildList cs)) = true := by
          rw [hsep, hws]
          apply parenOk_join '|' (by decide) (by decide) _ hwsne
          intro w hw
          obtain ⟨x, hx, rfl⟩ := List.mem_map.1 hw
          exact opSafe_parenOk '&' _ 0 (hkidprops x hx).2.2.1
        rw [show reprintChild (ConditionAST.or cs) =
          '(' :: (joinSep ((" || ").data) (reprintChildList cs) ++ [')']) from rfl]
        refine ⟨wrap_trimmed _, by simp, opSafe_wrap '&' _ hXpo, opSafe_wrap '|' _ hXpo⟩

-- ---------------------------------------------------------------------------
-- Parsing canonically re-printed text
-- ---------------------------------------------------------------------------

theorem splitTopLevel_safe (o : Char) (v : List Char) (htrim : trimL v = v)
    (hsafe : opSafeAux o 0 v = true) :
    splitTopLevel v o = if v.isEmpty then [] else [v] := by
  unfold splitTopLevel
  have hls := lastseg o v 0 [] hsafe
  rw [Nat.cast_zero] at hls
  rw [hls]
  simp only [List.reverse_nil, List.nil_append, List.map_cons, List.map_nil, htrim,
    List.filter_cons, List.filter_nil]
  by_cases hv : v.isEmpty <;> simp [hv]

theorem atom_parse (v : List Char) (htrim : trimL v = v) (hstrip : stripOuterParens v = v)
    (hand : opSafeAux '&' 0 v = true) (hor : opSafeAux '|' 0 v = true) :
    parseConditionExpr v = ConditionAST.atom v := by
  unfold parseConditionExpr
  simp only [parseConditionExprF]
  rw [htrim, hstrip]
  rw [splitTopLevel_safe '|' v htrim hor, splitTopLevel_safe '&' v htrim hand]
  by_cases hv : v.isEmpty <;> simp [hv, htrim]

theorem strip_join_fixed (w1 R : List Char) (hw1ne : w1 ≠ [])
    (hw1po : parenOkAux 0 w1 = true) (hRne : R ≠ [])
    (htrim : trimL (w1 ++ R) = w1 ++ R) :
    stripOuterParens (w1 ++ R) = w1 ++ R := by
  apply strip_inert _ _ htrim
  intro hhd j hj
  cases w1 with
  | nil => exact absurd rfl hw1ne
  | cons c w1t =>
    have hc : c = '(' := by simpa using hhd
    subst hc
    have hpw : parenOkAux 1 w1t = true := by
      rw [parenOkAux, if_pos rfl] at hw1po
      exact hw1po
    obtain ⟨j2, hj2lt, hj2⟩ := FMPfind w1t 0 1 R hpw
    have hfm : findMatchingParen (('(' :: w1t) ++ R) 0 = some j2 := by
      unfold findMatchingParen
      rw [List.drop_zero, List.cons_append, findMatchingParenAux, if_pos rfl]
      have hcast : ((0 : Nat) : Int) + 1 = (0 : Int) + 1 := by norm_num
      rw [hcast] at hj2
      exact hj2
    rw [hfm] at hj
    have hj2j : j2 = j := Option.some.inj hj
    have hR1 : 1 ≤ R.length := List.length_pos.2 hRne
    simp only [List.cons_append, List.length_cons, List.length_append]
    omega

theorem strip_join2_fixed (oJ : Char) (w1 w2 : List Char) (ws : List (List Char))
    (hall : ∀ w ∈ w1 :: w2 :: ws, trimL w = w ∧ w ≠ [] ∧ parenOkAux 0 w = true) :
    stripOuterParens (joinSep (' ' :: oJ :: oJ :: [' ']) (w1 :: w2 :: ws)) =
      joinSep (' ' :: oJ :: oJ :: [' ']) (w1 :: w2 :: ws) := by
  have hj3 : joinSep (' ' :: oJ :: oJ :: [' ']) (w1 :: w2 :: ws) =
      w1 ++ ((' ' :: oJ :: oJ :: [' ']) ++ joinSep (' ' :: oJ :: oJ :: [' ']) (w2 :: ws)) := by
    rw [joinSep, List.append_assoc]
    simp
  have htrim : trimL (joinSep (' ' :: oJ :: oJ :: [' ']) (w1 :: w2 :: ws)) =
      joinSep (' ' :: oJ :: oJ :: [' ']) (w1 :: w2 :: ws) :=
    joinSep_trimmed _ _ (by simp) (fun w hw => ⟨(hall w hw).1, (hall w hw).2.1⟩)
  rw [hj3] at htrim ⊢
  exact strip_join_fixed w1 _ (hall w1 (by simp)).2.1 (hall w1 (by simp)).2.2 (by simp) htrim

theorem strip_wrap (X : List Char) (htr : trimL X = X) (hpo : parenOkAux 0 X = true)
    (hfix : stripOuterParens X = X) (hne : X ≠ []) :
    stripOuterParens ('(' :: (X ++ [')'])) = X := by
  unfold stripOuterParens
  have hlen : ('(' :: (X ++ [')'])).length = X.length + 2 := by simp
  rw [hlen]
  have h2 : X.length + 2 = (X.length + 1) + 1 := rfl
  rw [h2]
  rw [stripOuterParensF]
  rw [wrap_trimmed X]
  dsimp only
  rw [FMPwrap X hpo]
  dsimp only
  rw [if_pos (show X.length + 1 = ('(' :: (X ++ [')'])).length - 1 by simp)]
  have hred : (('(' :: (X ++ [')'])).drop 1).dropLast = X := by simp
  rw [hred, htr]
  rw [if_neg hne]
  rw [strip_congr (X.length + 1) X X.length (by omega) le_rfl]
  exact hfix

theorem parse_strip_eq (e1 e2 : List Char)
    (h : stripOuterParens (trimL e1) = stripOuterParens (trimL e2)) :
    parseConditionExpr e1 = parseConditionExpr e2 := by
  show parseConditionExprF (e1.length + 1) e1 = parseConditionExprF (e2.length + 1) e2
  rw [parse_congr (e1.length + 1) (max e1.length e2.length + 1) e1 (by omega) (by omega)]
  rw [parse_congr (e2.length + 1) (max e1.length e2.length + 1) e2 (by omega) (by omega)]
  simp only [parseConditionExprF]
  rw [h]

/-- Parsing the canonical re-print of a parser-produced, atom-safe AST
recovers the AST, both in bare form and in parenthesized-child form. -/
theorem reparse_both : ∀ (n : Nat) (c : ConditionAST), sizeOf c ≤ n → ParseInv c →
    allAtomsSafe c = true →
    parseConditionExpr (reprintAST c) = c ∧ parseConditionExpr (reprintChild c) = c := by
  intro n
  induction n with
  | zero => intro c h; cases c <;> simp at h
  | succ n ih =>
    intro c hsz hpi hsafe
    cases c with
    | atom v =>
      cases hpi with
      | atom _ htrim hstrip =>
        have hsafe' : atomSafe v = true := hsafe
        rw [atomSafe, Bool.and_eq_true] at hsafe'
        have hv := atom_parse v htrim hstrip hsafe'.1 hsafe'.2
        exact ⟨hv, hv⟩
    | and cs =>
      cases hpi with
      | and _ hlen hkids hatomne =>
        have hsafeL : allAtomsSafeList cs = true := hsafe
        have hkidprops : ∀ x ∈ cs, trimL (reprintChild x) = reprintChild x ∧
            reprintChild x ≠ [] ∧ opSafeAux '&' 0 (reprintChild x) = true ∧
            opSafeAux '|' 0 (reprintChild x) = true :=
          fun x hx => rprops (sizeOf x) x le_rfl (hkids x hx)
            (allAtomsSafeList_mem hsafeL hx) (fun v hv => hatomne v (hv ▸ hx))
        have hih : ∀ x ∈ cs, parseConditionExpr (reprintChild x) = x := by
          intro x hx
          have hszx : sizeOf x ≤ n := by
            have hlt : sizeOf x < sizeOf cs := List.sizeOf_lt_of_mem hx
            have h2 : sizeOf cs < sizeOf (ConditionAST.and cs) := by simp
            omega
          exact (ih x hszx (hkids x hx) (allAtomsSafeList_mem hsafeL hx)).2
        obtain ⟨c1, c2, cs2, rfl⟩ : ∃ c1 c2 cs2, cs = c1 :: c2 :: cs2 := by
          cases cs with
          | nil => simp at hlen
          | cons a t =>
            cases t with
            | nil => simp at hlen
            | cons b t2 => exact ⟨a, b, t2, rfl⟩
        set J := joinSep (' ' :: '&' :: '&' :: [' ']) ((c1 :: c2 :: cs2).map reprintChild)
          with hJ
        have hrw : reprintAST (ConditionAST.and (c1 :: c2 :: cs2)) = J := by
          rw [hJ]
          rw [show reprintAST (ConditionAST.and (c1 :: c2 :: cs2)) =
            joinSep ((" && ").data) (reprintChildList (c1 :: c2 :: cs2)) from rfl]
          rw [show (" && ").data = ' ' :: '&' :: '&' :: [' '] from rfl,
            reprintChildList_eq_map]
        have hrc : reprintChild (ConditionAST.and (c1 :: c2 :: cs2)) = '(' :: (J ++ [')']) := by
          rw [hJ]
          rw [show reprintChild (ConditionAST.and (c1 :: c2 :: cs2)) = '(' ::
            (joinSep ((" && ").data) (reprintChildList (c1 :: c2 :: cs2)) ++ [')']) from rfl]
          rw [show (" && ").data = ' ' :: '&' :: '&' :: [' '] from rfl,
            reprintChildList_eq_map]
        have hwall : ∀ w ∈ (c1 :: c2 :: cs2).map reprintChild,
            opSafeAux '&' 0 w = true ∧ trimL w = w ∧ w ≠ [] := by
          intro w hw
          obtain ⟨x, hx, rfl⟩ := List.mem_map.1 hw
          exact ⟨(hkidprops x hx).2.2.1, (hkidprops x hx).1, (hkidprops x hx).2.1⟩
        have hwall2 : ∀ w ∈ reprintChild c1 :: reprintChild c2 :: cs2.map reprintChild,
            trimL w = w ∧ w ≠ [] ∧ parenOkAux 0 w = true := by
          intro w hw
          have hw' : w ∈ (c1 :: c2 :: cs2).map reprintChild := by simpa using hw
          exact ⟨(hwall w hw').2.1, (hwall w hw').2.2,
            opSafe_parenOk '&' w 0 (hwall w hw').1⟩
        have hXtrim : trimL J = J := by
          rw [hJ]
          exact joinSep_trimmed _ _ (by simp) (fun w hw => ⟨(hwall w hw).2.1, (hwall w hw).2.2⟩)
        have hXne : J ≠ [] := by
          rw [hJ]
          exact joinSep_ne_nil _ _ (by simp) (fun w hw => (hwall w hw).2.2)
        have hXor : opSafeAux '|' 0 J = true := by
          rw [hJ]
          apply opSafe_join '|' '&' (by decide) (by decide) (by decide) (by decide) _ (by simp)
          intro w hw
          obtain ⟨x, hx, rfl⟩ := List.mem_map.1 hw
          exact (hkidprops x hx).2.2.2
        have hXpo : parenOkAux 0 J = true := by
          rw [hJ]
          apply parenOk_join '&' (by decide) (by decide) _ (by simp)
          intro w hw
          obtain ⟨x, hx, rfl⟩ := List.mem_map.1 hw
          exact opSafe_parenOk '&' _ 0 (hkidprops x hx).2.2.1
        have hXstrip : stripOuterParens J = J := by
          rw [hJ]
          rw [show (c1 :: c2 :: cs2).map reprintChild =
            reprintChild c1 :: reprintChild c2 :: cs2.map reprintChild from rfl]
          exact strip_join2_fixed '&' _ _ _ hwall2
        have hand_split : splitTopLevel J '&' = (c1 :: c2 :: cs2).map reprintChild := by
          rw [hJ]
          unfold splitTopLevel
          exact splitJoin '&' (by decide) (by decide) (by decide) _ [] (by simp) hwall
            (Or.inl rfl)
        have hor_split : splitTopLevel J '|' = [J] := by
          rw [splitTopLevel_safe '|' J hXtrim hXor]
          rw [if_neg (fun hemp => hXne (List.isEmpty_iff.1 hemp))]
        have hmain : parseConditionExpr J = ConditionAST.and (c1 :: c2 :: cs2) := by
          unfold parseConditionExpr
          simp only [parseConditionExprF]
          rw [hXtrim, hXstrip, hor_split]
          rw [if_neg (by simp)]
          rw [hand_split]
          rw [if_pos (by simp)]
          congr 1
          rw [List.map_map]
          have hpt : ∀ x ∈ (c1 :: c2 :: cs2),
              parseConditionExprF (J.length) (reprintChild x) = x := by
            intro x hx
            have hmem : reprintChild x ∈ splitTopLevel J '&' := by
              rw [hand_split]
              exact List.mem_map_of_mem _ hx
            have hshort := split_part_short J '&' _ (by rw [hand_split]; simp) hmem
            rw [parse_congr (J.length) ((reprintChild x).length + 1) _ (by omega) (by omega)]
            exact hih x hx
          have hmapid : (c1 :: c2 :: cs2).map (parseConditionExprF J.length ∘ reprintChild) =
              (c1 :: c2 :: cs2).map id :=
            List.map_congr_left (fun x hx => by simpa [Function.comp] using hpt x hx)
          rw [hmapid, List.map_id]
        refine ⟨by rw [hrw]; exact hmain, ?_⟩
        rw [hrc]
        have hps : parseConditionExpr ('(' :: (J ++ [')'])) = parseConditionExpr J := by
          apply parse_strip_eq
          rw [wrap_trimmed J, hXtrim]
          rw [strip_wrap J hXtrim hXpo hXstrip hXne, hXstrip]
        rw [hps, hmain]
    | or cs =>
      cases hpi with
      | or _ hlen hkids hatomne =>
        have hsafeL : allAtomsSafeList cs = true := hsafe
        have hkidprops : ∀ x ∈ cs, trimL (reprintChild x) = reprintChild x ∧
            reprintChild x ≠ [] ∧ opSafeAux '&' 0 (reprintChild x) = true ∧
            opSafeAux '|' 0 (reprintChild x) = true :=
          fun x hx => rprops (sizeOf x) x le_rfl (hkids x hx)
            (allAtomsSafeList_mem hsafeL hx) (fun v hv => hatomne v (hv ▸ hx))
        have hih : ∀ x ∈ cs, parseConditionExpr (reprintChild x) = x := by
          intro x hx
          have hszx : sizeOf x ≤ n := by
            have hlt : sizeOf x < sizeOf cs := List.sizeOf_lt_of_mem hx
            have h2 : sizeOf cs < sizeOf (ConditionAST.or cs) := by simp
            omega
          exact (ih x hszx (hkids x hx) (allAtomsSafeList_mem hsafeL hx)).2
        obtain ⟨c1, c2, cs2, rfl⟩ : ∃ c1 c2 cs2, cs = c1 :: c2 :: cs2 := by
          cases cs with
          | nil => simp at hlen
          | cons a t =>
            cases t with
            | nil => simp at hlen
            | cons b t2 => exact ⟨a, b, t2, rfl⟩
        set J := joinSep (' ' :: '|' :: '|' :: [' ']) ((c1 :: c2 :: cs2).map reprintChild)
          with hJ
        have hrw : reprintAST (ConditionAST.or (c1 :: c2 :: cs2)) = J := by
          rw [hJ]
          rw [show reprintAST (ConditionAST.or (c1 :: c2 :: cs2)) =
            joinSep ((" || ").data) (reprintChildList (c1 :: c2 :: cs2)) from rfl]
          rw [show (" || ").data = ' ' :: '|' :: '|' :: [' '] from rfl,
            reprintChildList_eq_map]
        have hrc : reprintChild (ConditionAST.or (c1 :: c2 :: cs2)) = '(' :: (J ++ [')']) := by
          rw [hJ]
          rw [show reprintChild (ConditionAST.or (c1 :: c2 :: cs2)) = '(' ::
            (joinSep ((" || ").data) (reprintChildList (c1 :: c2 :: cs2)) ++ [')']) from rfl]
          rw [show (" || ").data = ' ' :: '|' :: '|' :: [' '] from rfl,
            reprintChildList_eq_map]
        have hwall : ∀ w ∈ (c1 :: c2 :: cs2).map reprintChild,
            opSafeAux '|' 0 w = true ∧ trimL w = w ∧ w ≠ [] := by
          intro w hw
          obtain ⟨x, hx, rfl⟩ := List.mem_map.1 hw
          exact ⟨(hkidprops x hx).2.2.2, (hkidprops x hx).1, (hkidprops x hx).2.1⟩
        have hwall2 : ∀ w ∈ reprintChild c1 :: reprintChild c2 :: cs2.map reprintChild,
            trimL w = w ∧ w ≠ [] ∧ parenOkAux 0 w = true := by
          intro w hw
          have hw' : w ∈ (c1 :: c2 :: cs2).map reprintChild := by simpa using hw
          exact ⟨(hwall w hw').2.1, (hwall w hw').2.2,
            opSafe_parenOk '|' w 0 (hwall w hw').1⟩
        have hXtrim : trimL J = J := by
          rw [hJ]
          exact joinSep_trimmed _ _ (by simp) (fun w hw => ⟨(hwall w hw).2.1, (hwall w hw).2.2⟩)
        have hXne : J ≠ [] := by
          rw [hJ]
          exact joinSep_ne_nil _ _ (by simp) (fun w hw => (hwall w hw).2.2)
        have hXpo : parenOkAux 0 J = true := by
          rw [hJ]
          apply parenOk_join '|' (by decide) (by decide) _ (by simp)
          intro w hw
          obtain ⟨x, hx, rfl⟩ := List.mem_map.1 hw
          exact opSafe_parenOk '|' _ 0 (hkidprops x hx).2.2.2
        have hXstrip : stripOuterParens J = J := by
          rw [hJ]
          rw [show (c1 :: c2 :: cs2).map reprintChild =
            reprintChild c1 :: reprintChild c2 :: cs2.map reprintChild from rfl]
          exact strip_join2_fixed '|' _ _ _ hwall2
        have hor_split : splitTopLevel J '|' = (c1 :: c2 :: cs2).map reprintChild := by
          rw [hJ]
          unfold splitTopLevel
          exact splitJoin '|' (by decide) (by decide) (by decide) _ [] (by simp) hwall
            (Or.inl rfl)
        have hmain : parseConditionExpr J = ConditionAST.or (c1 :: c2 :: cs2) := by
          unfold parseConditionExpr
          simp only [parseConditionExprF]
          rw [hXtrim, hXstrip, hor_split]
          rw [if_pos (by simp)]
          congr 1
          rw [List.map_map]
          have hpt : ∀ x ∈ (c1 :: c2 :: cs2),
              parseConditionExprF (J.length) (reprintChild x) = x := by
            intro x hx
            have hmem : reprintChild x ∈ splitTopLevel J '|' := by
              rw [hor_split]
              exact List.mem_map_of_mem _ hx
            have hshort := split_part_short J '|' _ (by rw [hor_split]; simp) hmem
            rw [parse_congr (J.length) ((reprintChild x).length + 1) _ (by omega) (by omega)]
            exact hih x hx
          have hmapid : (c1 :: c2 :: cs2).map (parseConditionExprF J.length ∘ reprintChild) =
              (c1 :: c2 :: cs2).map id :=
            List.map_congr_left (fun x hx => by simpa [Function.comp] using hpt x hx)
          rw [hmapid, List.map_id]
        refine ⟨by rw [hrw]; exact hmain, ?_⟩
        rw [hrc]
        have hps : parseConditionExpr ('(' :: (J ++ [')'])) = parseConditionExpr J := by
          apply parse_strip_eq
          rw [wrap_trimmed J, hXtrim]
          rw [strip_wrap J hXtrim hXpo hXstrip hXne, hXstrip]
        rw [hps, hmain]

/-- C9 (counterexample): parse is NOT idempotent under canonical re-print for
every guard text.  For `t = "(a ||) && (|| b)"` the parser produces an AND of
two atoms whose texts contain depth-0 `||`; the bare re-print
`"a || && || b"` re-parses as an OR node, structurally different from the
first AST. -/
theorem claim9_counterexample :
    parseConditionExpr (("(a ||) && (|| b)").data) =
      ConditionAST.and [ConditionAST.atom (("a ||").data),
        ConditionAST.atom (("|| b").data)] ∧
    parseConditionExpr (reprintAST (parseConditionExpr (("(a ||) && (|| b)").data))) ≠
      parseConditionExpr (("(a ||) && (|| b)").data) := by
  constructor
  · decide
  · decide

/-- C9 (amended): for every guard text `t` whose parsed AST has only safe
atoms — atom texts with balanced parentheses that never dip below their
starting depth and no depth-0 occurrence of `&&` or `||` — re-serializing
the AST produced by `parseConditionExpr t` (joining each and/or node's
children with that node's operator and re-adding parentheses around
composite children) and parsing the result again yields exactly the first
AST. -/
theorem claim9_amended (t : List Char)
    (hsafe : allAtomsSafe (parseConditionExpr t) = true) :
    parseConditionExpr (reprintAST (parseConditionExpr t)) = parseConditionExpr t := by
  have hpi : ParseInv (parseConditionExpr t) := parse_inv (t.length + 1) t (by omega)
  exact (reparse_both (sizeOf (parseConditionExpr t)) (parseConditionExpr t)
    le_rfl hpi hsafe).1

/-- Witness for the amended C9 at the concrete guard
`"(failure() || cancelled()) && success()"`. -/
theorem claim9_amended_witness :
    allAtomsSafe (parseConditionExpr (("(failure() || cancelled()) && success()").data)) =
      true ∧
    parseConditionExpr (reprintAST
      (parseConditionExpr (("(failure() || cancelled()) && success()").data))) =
      parseConditionExpr (("(failure() || cancelled()) && success()").data) :=
  ⟨by decide, claim9_amended (("(failure() || cancelled()) && success()").data) (by decide)⟩

end Y2M
